import Mathlib

/-!
Verification of the 2D mesh topology core (Mesh2D, SparseMesh2D, topology
selector) of the astra-network-analytical congestion-aware backend.

The C++ sources are shallowly embedded:
* machine `int` values become `Int` (all arithmetic here stays far from
  overflow, and the asserted preconditions keep division operands
  non-negative, where C truncated division agrees with Lean's `/` on `Int`);
* `std::set` / `std::map` inputs become duplicate-free `List`s (iterated in
  order where the order matters);
* the `grid_to_npu` vector (indexed by `y * width + x`) becomes a function
  from coordinates, and `npu_to_grid` becomes a function from IDs, each built
  by the same sequence of updates the C++ loops perform;
* a `Route` of device pointers becomes the `List Int` of the device IDs;
* `connect(a, b, bw, lat, true)` is recorded as the two directed links
  `(a, b)` and `(b, a)`; bandwidth and latency are uniform per topology and
  play no role in any claim, so they are not carried around.
-/

namespace NetworkAnalyticalCongestionAware

/-- A grid coordinate, `(x, y)`. -/
abbrev Coord := Int × Int

/-- The list of `Int` values `0, 1, ..., n-1` (empty for `n ≤ 0`), the
iteration space of a C++ loop `for (int i = 0; i < n; ++i)`. -/
def int_range (n : Int) : List Int :=
  (List.range n.toNat).map (fun i : Nat => (i : Int))

/-! ## Mesh2D -/

/-- Mesh2D::coords_to_npu_id: linear NPU ID of the position `(x, y)`. -/
def coords_to_npu_id (width x y : Int) : Int :=
  y * width + x

/-- Mesh2D::get_2d_coords: decompose a linear NPU ID into `(x, y)`. -/
def get_2d_coords (width npu_id : Int) : Coord :=
  (npu_id % width, npu_id / width)

/-- Mesh2D::manhattan_distance between two NPU IDs. -/
def manhattan_distance (width src dest : Int) : Int :=
  let sc := get_2d_coords width src
  let dc := get_2d_coords width dest
  |dc.1 - sc.1| + |dc.2 - sc.2|

/-- Phase 1 of Mesh2D::route: the X-dimension walk.  Starting at `(x, y)`,
step `x` by `±1` toward `dest_x`, collecting the NPU ID of each position
entered, until `x = dest_x`. -/
def route_walk_x (width dest_x x y : Int) : List Int :=
  if h : x = dest_x then []
  else
    coords_to_npu_id width (x + if dest_x > x then 1 else -1) y ::
      route_walk_x width dest_x (x + if dest_x > x then 1 else -1) y
termination_by (dest_x - x).natAbs
decreasing_by
  split <;> omega

/-- Phase 2 of Mesh2D::route: the Y-dimension walk at fixed column `x`. -/
def route_walk_y (width dest_y x y : Int) : List Int :=
  if h : y = dest_y then []
  else
    coords_to_npu_id width x (y + if dest_y > y then 1 else -1) ::
      route_walk_y width dest_y x (y + if dest_y > y then 1 else -1)
termination_by (dest_y - y).natAbs
decreasing_by
  split <;> omega

/-- Mesh2D::route: XY routing.  Returns the list of device IDs from `src` to
`dest` inclusive. -/
def mesh2d_route (width src dest : Int) : List Int :=
  if src = dest then [src]
  else
    let sc := get_2d_coords width src
    let dc := get_2d_coords width dest
    src :: (route_walk_x width dc.1 sc.1 sc.2 ++ route_walk_y width dc.2 dc.1 sc.2)

/-- The directed links created by the Mesh2D constructor loop: for each grid
position in row-major order, a bidirectional connection (two directed links)
to the right neighbor when it exists, then to the bottom neighbor when it
exists. -/
def mesh2d_links (width height : Int) : List (Int × Int) :=
  (int_range height).flatMap (fun y =>
    (int_range width).flatMap (fun x =>
      (if x + 1 < width then
        [(coords_to_npu_id width x y, coords_to_npu_id width (x + 1) y),
         (coords_to_npu_id width (x + 1) y, coords_to_npu_id width x y)]
       else []) ++
      (if y + 1 < height then
        [(coords_to_npu_id width x y, coords_to_npu_id width x (y + 1)),
         (coords_to_npu_id width x (y + 1), coords_to_npu_id width x y)]
       else [])))

/-- The links contributed by one iteration of the Mesh2D constructor's inner
loop body at position `(x, y)` (same expression as in `mesh2d_links`). -/
def mesh_cell_links (width height x y : Int) : List (Int × Int) :=
  (if x + 1 < width then
    [(coords_to_npu_id width x y, coords_to_npu_id width (x + 1) y),
     (coords_to_npu_id width (x + 1) y, coords_to_npu_id width x y)]
   else []) ++
  (if y + 1 < height then
    [(coords_to_npu_id width x y, coords_to_npu_id width x (y + 1)),
     (coords_to_npu_id width x (y + 1), coords_to_npu_id width x y)]
   else [])

/-- The `(width, height)` pair chosen by the flat-count Mesh2D constructor:
`width = height = (int)std::sqrt(npus_count)`.  IEEE `sqrt` is exactly
rounded, so on this domain the cast equals the integer square root. -/
def mesh2d_flat_dims (npus_count : Int) : Int × Int :=
  ((Nat.sqrt npus_count.toNat : Int), (Nat.sqrt npus_count.toNat : Int))

/-! ## SparseMesh2D -/

/-- Helper `calculate_valid_npu_count`: total positions minus the number of
excluded coordinates that fall within grid bounds. -/
def calculate_valid_npu_count (width height : Int) (excluded : List Coord) : Int :=
  let total_positions := width * height
  let excluded_count :=
    excluded.foldl
      (fun acc c =>
        if 0 ≤ c.1 ∧ c.1 < width ∧ 0 ≤ c.2 ∧ c.2 < height then acc + 1 else acc)
      (0 : Int)
  total_positions - excluded_count

/-- The grid positions in row-major scan order (outer loop `y`, inner `x`). -/
def row_major_coords (width height : Int) : List Coord :=
  (int_range height).flatMap (fun y => (int_range width).map (fun x => (x, y)))

/-- The state of a SparseMesh2D after construction: grid shape, exclusion
set, and the two coordinate/ID translation tables. -/
structure SparseMesh where
  width : Int
  height : Int
  excluded : List Coord
  grid_to_npu : Coord → Int
  npu_to_grid : Int → Coord
  valid_npu_count : Int

/-- SparseMesh2D::is_valid_position: in bounds and not excluded. -/
def is_valid_position (width height : Int) (excluded : List Coord) (c : Coord) : Bool :=
  if c.1 < 0 ∨ width ≤ c.1 ∨ c.2 < 0 ∨ height ≤ c.2 then false
  else decide (c ∉ excluded)

/-- SparseMesh2D::get_npu_at: `-1` out of bounds, otherwise the forward
table entry (which is `-1` at excluded positions). -/
def get_npu_at (m : SparseMesh) (c : Coord) : Int :=
  if c.1 < 0 ∨ m.width ≤ c.1 ∨ c.2 < 0 ∨ m.height ≤ c.2 then -1
  else m.grid_to_npu c

/-- SparseMesh2D::get_valid_neighbors: of the four axis-aligned candidates
(in the source's order right, left, down, up), those that are valid. -/
def get_valid_neighbors (m : SparseMesh) (c : Coord) : List Coord :=
  [(c.1 + 1, c.2), (c.1 - 1, c.2), (c.1, c.2 + 1), (c.1, c.2 - 1)].filter
    (fun n => is_valid_position m.width m.height m.excluded n)

/-- The induced grid graph of the claims: vertices are the valid (in-bounds,
non-excluded) positions, edges join valid positions at Manhattan distance
exactly 1. -/
def sparse_graph (width height : Int) (excluded : List Coord) : SimpleGraph Coord where
  Adj a b :=
    is_valid_position width height excluded a = true ∧
    is_valid_position width height excluded b = true ∧
    |a.1 - b.1| + |a.2 - b.2| = 1
  symm := by
    intro a b h
    refine ⟨h.2.1, h.1, ?_⟩
    rw [abs_sub_comm b.1 a.1, abs_sub_comm b.2 a.2]
    exact h.2.2
  loopless := by
    intro a h
    simp at h

/-- The induced grid graph of a sparse mesh. -/
def SparseMesh.graph (m : SparseMesh) : SimpleGraph Coord :=
  sparse_graph m.width m.height m.excluded

/-- The exact trace of the parent-pointer reconstruction loop: the list of
coordinates visited before the sentinel (x-coordinate `-1`) is reached. -/
inductive ReconSpec (parent : Coord → Coord) : Coord → List Coord → Prop where
  | stop {v : Coord} : v.1 = -1 → ReconSpec parent v []
  | go {v : Coord} {L : List Coord} : v.1 ≠ -1 → ReconSpec parent (parent v) L →
      ReconSpec parent v (v :: L)

/-- The BFS loop invariant: the queue holds visited cells, visited cells are
valid and reachable from the source, each visited cell's parent chain is a
duplicate-free shortest path back to the source, the queue is split into the
current distance layer and the next one with everything closer already
visited, dequeued cells have all neighbors visited, and the destination is
never silently dropped. -/
def BfsInv (m : SparseMesh) (s dest : Coord) (q : List Coord)
    (visited : Finset Coord) (parent : Coord → Coord) : Prop :=
  s ∈ visited ∧
  (∀ v ∈ q, v ∈ visited) ∧
  (∀ v ∈ visited, is_valid_position m.width m.height m.excluded v = true) ∧
  (∀ v ∈ visited, m.graph.Reachable s v) ∧
  q.Nodup ∧
  (∀ v ∈ visited, ∃ L, ReconSpec parent v L ∧ L.head? = some v ∧
      L.getLast? = some s ∧ L.length = m.graph.dist s v + 1 ∧
      (∀ u ∈ L, u ∈ visited) ∧ L.Nodup ∧
      List.Chain' (fun a b => m.graph.Adj b a) L) ∧
  (∃ d : Nat,
    (∃ qa qb, q = qa ++ qb ∧ (∀ v ∈ qa, m.graph.dist s v = d) ∧
      (∀ v ∈ qb, m.graph.dist s v = d + 1)) ∧
    (∀ u, is_valid_position m.width m.height m.excluded u = true →
      m.graph.Reachable s u → m.graph.dist s u ≤ d → u ∈ visited)) ∧
  (∀ u ∈ visited, u ∉ q → ∀ w, m.graph.Adj u w → w ∈ visited) ∧
  (dest ∈ visited → dest ∈ q)

/-- The invariant carried through the neighbor-expansion fold of one BFS
iteration: like `BfsInv`, but relative to the dequeued cell `c` (whose
distance layer is `d`), which is out of the queue and whose neighbor list is
in the middle of being processed. -/
def ExpandInv (m : SparseMesh) (s dest c : Coord) (d : Nat) (q : List Coord)
    (vis : Finset Coord) (par : Coord → Coord) : Prop :=
  c ∈ vis ∧ c ∉ q ∧ s ∈ vis ∧
  (∀ v ∈ q, v ∈ vis) ∧
  (∀ v ∈ vis, is_valid_position m.width m.height m.excluded v = true) ∧
  (∀ v ∈ vis, m.graph.Reachable s v) ∧
  q.Nodup ∧
  (∀ v ∈ vis, ∃ L, ReconSpec par v L ∧ L.head? = some v ∧ L.getLast? = some s ∧
    L.length = m.graph.dist s v + 1 ∧ (∀ u ∈ L, u ∈ vis) ∧ L.Nodup ∧
    List.Chain' (fun a b => m.graph.Adj b a) L) ∧
  (∃ qa qb, q = qa ++ qb ∧ (∀ v ∈ qa, m.graph.dist s v = d) ∧
    (∀ v ∈ qb, m.graph.dist s v = d + 1)) ∧
  (∀ u, is_valid_position m.width m.height m.excluded u = true →
    m.graph.Reachable s u → m.graph.dist s u ≤ d → u ∈ vis) ∧
  (∀ u ∈ vis, u ∉ q → u ≠ c → ∀ w, m.graph.Adj u w → w ∈ vis) ∧
  (dest ∈ vis → dest ∈ q)

/-- The starting table state: all forward entries `-1` (the vector's fill
value), the reverse table a vector modelled with fill value `(0, 0)`, and ID
counter 0. -/
def auto_init : (Coord → Int) × (Int → Coord) × Int :=
  ((fun _ => (-1 : Int)), (fun _ => ((0 : Int), (0 : Int))), (0 : Int))

/-- One iteration of the auto-numbering scan loop. -/
def auto_assign_step (excluded : List Coord)
    (st : (Coord → Int) × (Int → Coord) × Int) (c : Coord) :
    (Coord → Int) × (Int → Coord) × Int :=
  if c ∈ excluded then st
  else
    ((fun c' => if c' = c then st.2.2 else st.1 c'),
     (fun i => if i = st.2.2 then c else st.2.1 i),
     st.2.2 + 1)

/-- The auto-numbering SparseMesh2D constructor: scan the grid in row-major
order, giving each non-excluded position the next NPU ID starting from 0. -/
def SparseMesh2D_auto (width height : Int) (excluded : List Coord) : SparseMesh :=
  let st := (row_major_coords width height).foldl (auto_assign_step excluded) auto_init
  ⟨width, height, excluded, st.1, st.2.1, st.2.2⟩

/-- The `while (used_npu_ids.count(next_auto_id)) next_auto_id++;` scan of
the custom-placement fallback: the smallest ID `≥ k` not in `used`. -/
def next_unused_id (used : Finset Int) (k : Int) : Int :=
  if h : k ∈ used then next_unused_id used (k + 1) else k
termination_by (used.filter (fun i => k ≤ i)).card
decreasing_by
  refine Finset.card_lt_card ?_
  constructor
  · intro i hi
    simp only [Finset.mem_filter] at hi ⊢
    exact ⟨hi.1, by omega⟩
  · intro hsub
    have := hsub (Finset.mem_filter.mpr ⟨h, le_refl k⟩)
    simp only [Finset.mem_filter] at this
    omega

/-- One iteration of the custom-placement application loop, with its four
recoverable validation checks. -/
def placement_step (width height : Int) (excluded : List Coord) (valid_count : Int)
    (st : (Coord → Int) × (Int → Coord) × Finset Int) (entry : Coord × Int) :
    (Coord → Int) × (Int → Coord) × Finset Int :=
  let c := entry.1
  let npu_id := entry.2
  if c.1 < 0 ∨ width ≤ c.1 ∨ c.2 < 0 ∨ height ≤ c.2 then st
  else if c ∈ excluded then st
  else if npu_id < 0 ∨ valid_count ≤ npu_id then st
  else if npu_id ∈ st.2.2 then st
  else
    ((fun c' => if c' = c then npu_id else st.1 c'),
     (fun i => if i = npu_id then c else st.2.1 i),
     insert npu_id st.2.2)

/-- One iteration of the auto-fill fallback loop. -/
def backfill_step (excluded : List Coord)
    (st : (Coord → Int) × (Int → Coord) × Finset Int × Int) (c : Coord) :
    (Coord → Int) × (Int → Coord) × Finset Int × Int :=
  if c ∈ excluded then st
  else if 0 ≤ st.1 c then st
  else
    let a := next_unused_id st.2.2.1 st.2.2.2
    ((fun c' => if c' = c then a else st.1 c'),
     (fun i => if i = a then c else st.2.1 i),
     insert a st.2.2.1,
     a + 1)

/-- The custom-placement SparseMesh2D constructor.  Each placement entry is
applied unless its coordinate is out of bounds, its coordinate is excluded,
its ID is out of `[0, valid_count)`, or its ID was already used.  If the
number of assigned IDs then differs from `valid_count`, every still-empty
valid position is auto-assigned the lowest unused ID in row-major order. -/
def SparseMesh2D_custom (width height : Int) (excluded : List Coord)
    (npu_placement : List (Coord × Int)) : SparseMesh :=
  let valid_count := calculate_valid_npu_count width height excluded
  let st1 :=
    npu_placement.foldl (placement_step width height excluded valid_count)
      ((fun _ => (-1 : Int)), (fun _ => ((0 : Int), (0 : Int))), (∅ : Finset Int))
  let st2 :=
    if (st1.2.2.card : Int) = valid_count then (st1.1, st1.2.1)
    else
      let bf :=
        (row_major_coords width height).foldl (backfill_step excluded)
          (st1.1, st1.2.1, st1.2.2, (0 : Int))
      (bf.1, bf.2.1)
  ⟨width, height, excluded, st2.1, st2.2, valid_count⟩

/-- Verification predicate for the custom constructor: the partial tables
form a partial bijection between the IDs in `used` (all within
`[0, valid_count)`) and the valid coordinates assigned so far. -/
def TableInv (width height : Int) (excluded : List Coord) (valid_count : Int)
    (g : Coord → Int) (n : Int → Coord) (used : Finset Int) : Prop :=
  (∀ c, 0 ≤ g c →
    is_valid_position width height excluded c = true ∧ g c ∈ used ∧ n (g c) = c) ∧
  (∀ i ∈ used, 0 ≤ i ∧ i < valid_count ∧
    is_valid_position width height excluded (n i) = true ∧ g (n i) = i)

/-! ## SparseMesh2D routing (BFS) -/

/-- The set of valid grid cells (used only as a termination measure and in
specifications, not by the algorithm itself). -/
def valid_cells (width height : Int) (excluded : List Coord) : Finset Coord :=
  ((row_major_coords width height).filter
    (fun c => is_valid_position width height excluded c)).toFinset

/-- The body of the BFS neighbor loop: for each neighbor not yet visited,
mark it visited, record its parent, and push it on the queue. -/
def bfs_expand (c : Coord) (nbrs : List Coord)
    (st : List Coord × Finset Coord × (Coord → Coord)) :
    List Coord × Finset Coord × (Coord → Coord) :=
  nbrs.foldl
    (fun st nb =>
      if nb ∈ st.2.1 then st
      else (st.1 ++ [nb], insert nb st.2.1, fun z => if z = nb then c else st.2.2 z))
    st

/-- Path reconstruction: follow parent pointers from `cur`, collecting
coordinates, until the sentinel (x-coordinate `-1`) is reached.  The C++
`while` loop carries no fuel; the caller passes fuel exceeding any possible
parent-chain length, so the two agree on all reachable states. -/
def reconstruct_path (parent : Coord → Coord) : Nat → Coord → List Coord
  | 0, _ => []
  | fuel + 1, cur =>
    if cur.1 = -1 then [] else cur :: reconstruct_path parent fuel (parent cur)

/-- Unfolding membership in `int_range`. -/
theorem mem_int_range {n i : Int} : i ∈ int_range n ↔ 0 ≤ i ∧ i < n := by
  constructor
  · intro hi
    obtain ⟨k, hk, rfl⟩ := List.mem_map.mp hi
    have := List.mem_range.mp hk
    omega
  · intro h
    exact List.mem_map.mpr ⟨i.toNat, List.mem_range.mpr (by omega), by omega⟩

/-- Unfolding membership in the row-major scan. -/
theorem mem_row_major_coords {w h : Int} {c : Coord} :
    c ∈ row_major_coords w h ↔ 0 ≤ c.1 ∧ c.1 < w ∧ 0 ≤ c.2 ∧ c.2 < h := by
  simp only [row_major_coords, List.mem_flatMap, List.mem_map]
  constructor
  · rintro ⟨y, hy, x, hx, rfl⟩
    rw [mem_int_range] at hy hx
    exact ⟨hx.1, hx.2, hy.1, hy.2⟩
  · rintro ⟨h1, h2, h3, h4⟩
    exact ⟨c.2, mem_int_range.mpr ⟨h3, h4⟩, c.1, mem_int_range.mpr ⟨h1, h2⟩, rfl⟩

/-- Unfolding `is_valid_position`. -/
theorem is_valid_position_iff {w h : Int} {E : List Coord} {c : Coord} :
    is_valid_position w h E c = true ↔
      0 ≤ c.1 ∧ c.1 < w ∧ 0 ≤ c.2 ∧ c.2 < h ∧ c ∉ E := by
  simp only [is_valid_position]
  split
  · simp only [Bool.false_eq_true, false_iff]
    omega
  · simp only [decide_eq_true_eq]
    constructor
    · intro hE
      refine ⟨by omega, by omega, by omega, by omega, hE⟩
    · intro h
      exact h.2.2.2.2

/-- A valid position is a member of `valid_cells`. -/
theorem mem_valid_cells {w h : Int} {E : List Coord} {c : Coord}
    (hc : is_valid_position w h E c = true) : c ∈ valid_cells w h E := by
  have hb := is_valid_position_iff.mp hc
  simp only [valid_cells, List.mem_toFinset, List.mem_filter]
  exact ⟨mem_row_major_coords.mpr ⟨hb.1, hb.2.1, hb.2.2.1, hb.2.2.2.1⟩, hc⟩

/-- Measure bound for the BFS loop: expanding the neighbors of a dequeued
cell never increases `|unvisited valid cells| * 5 + |queue|`, because every
enqueued neighbor is a valid cell freshly moved into `visited`. -/
theorem bfs_expand_measure (VC : Finset Coord) (c : Coord) (nbrs : List Coord)
    (hn : ∀ nb ∈ nbrs, nb ∈ VC) :
    ∀ (q : List Coord) (vis : Finset Coord) (par : Coord → Coord),
      (VC \ (bfs_expand c nbrs (q, vis, par)).2.1).card * 5 +
          (bfs_expand c nbrs (q, vis, par)).1.length ≤
        (VC \ vis).card * 5 + q.length := by
  induction nbrs with
  | nil =>
    intro q vis par
    simp [bfs_expand]
  | cons nb rest ih =>
    intro q vis par
    have hrest : ∀ x ∈ rest, x ∈ VC := fun x hx => hn x (List.mem_cons_of_mem _ hx)
    by_cases hv : nb ∈ vis
    · simpa [bfs_expand, hv] using ih hrest q vis par
    · have hstep := ih hrest (q ++ [nb]) (insert nb vis)
        (fun z => if z = nb then c else par z)
      simp only [bfs_expand, List.foldl_cons, if_neg hv] at hstep ⊢
      refine le_trans hstep ?_
      have hmem : nb ∈ VC \ vis :=
        Finset.mem_sdiff.mpr ⟨hn nb (List.mem_cons_self nb rest), hv⟩
      have hins : VC \ insert nb vis = (VC \ vis).erase nb := by
        ext z
        simp only [Finset.mem_sdiff, Finset.mem_insert, Finset.mem_erase]
        tauto
      have hcard : (VC \ insert nb vis).card + 1 = (VC \ vis).card := by
        rw [hins]
        exact Finset.card_erase_add_one hmem
      simp only [List.length_append, List.length_cons, List.length_nil]
      omega

/-- The BFS main loop of SparseMesh2D::bfs_route.  Dequeues the front
coordinate; if it is the destination, reconstructs the path (destination
first), otherwise expands its valid neighbors and continues.  Returns `none`
when the queue is exhausted. -/
def bfs_loop (m : SparseMesh) (dest_c : Coord) :
    List Coord → Finset Coord → (Coord → Coord) → Option (List Coord)
  | [], _, _ => none
  | c :: rest, visited, parent =>
    if c = dest_c then
      some (reconstruct_path parent (m.width.toNat * m.height.toNat + 1) dest_c)
    else
      let st := bfs_expand c (get_valid_neighbors m c) (rest, visited, parent)
      bfs_loop m dest_c st.1 st.2.1 st.2.2
termination_by q visited _ =>
  ((valid_cells m.width m.height m.excluded) \ visited).card * 5 + q.length
decreasing_by
  have hn : ∀ nb ∈ get_valid_neighbors m c,
      nb ∈ valid_cells m.width m.height m.excluded := by
    intro nb hnb
    refine mem_valid_cells ?_
    simp only [get_valid_neighbors, List.mem_filter] at hnb
    exact hnb.2
  have h := bfs_expand_measure (valid_cells m.width m.height m.excluded) c
    (get_valid_neighbors m c) hn rest visited parent
  simp only [List.length_cons]
  omega

/-- SparseMesh2D::bfs_route: BFS from `src`'s coordinate; on success the
reconstructed coordinate path is reversed and translated to device IDs, and
on exhaustion the degraded single-element route `[src]` is returned. -/
def bfs_route (m : SparseMesh) (src dest : Int) : List Int :=
  let src_c := m.npu_to_grid src
  let dest_c := m.npu_to_grid dest
  match bfs_loop m dest_c [src_c] {src_c}
      (fun z => if z = src_c then ((-1 : Int), (-1 : Int)) else ((0 : Int), (0 : Int))) with
  | some path => path.reverse.map (fun c => get_npu_at m c)
  | none => [src]

/-- SparseMesh2D::route: the trivial same-endpoint route, else BFS. -/
def SparseMesh.route (m : SparseMesh) (src dest : Int) : List Int :=
  if src = dest then [src] else bfs_route m src dest

/-! ## Topology selector -/

/-- The topology-kind tag of the configuration. -/
inductive TopologyBuildingBlock where
  | Ring
  | Switch
  | FullyConnected
  | Mesh2D
  | SparseMesh2D
deriving DecidableEq

/-- The configuration fields read by `construct_topology` (one dimension's
worth; bandwidth and latency are passed through unchanged and omitted). -/
structure NetworkConfig where
  dims_count : Int
  topology_type : TopologyBuildingBlock
  npus_count : Int
  mesh_width : Int
  mesh_height : Int
  excluded_coords : List Coord
  npu_placement : List (Coord × Int)

/-- Which concrete topology the selector instantiated, with the arguments
that determine its shape. -/
inductive BuiltTopology where
  | Ring (npus_count : Int)
  | Switch (npus_count : Int)
  | FullyConnected (npus_count : Int)
  | DenseMesh (width height : Int)
  | SparseMesh2DBuilt (m : SparseMesh)

/-- The selector `construct_topology`: `none` models the fatal
`std::exit(-1)` configuration-error paths. -/
def construct_topology (cfg : NetworkConfig) : Option BuiltTopology :=
  if cfg.dims_count ≠ 1 then none
  else
    match cfg.topology_type with
    | .Ring => some (.Ring cfg.npus_count)
    | .Switch => some (.Switch cfg.npus_count)
    | .FullyConnected => some (.FullyConnected cfg.npus_count)
    | .Mesh2D =>
      if cfg.mesh_width > 0 ∧ cfg.mesh_height > 0 then
        some (.DenseMesh cfg.mesh_width cfg.mesh_height)
      else
        some (.DenseMesh (mesh2d_flat_dims cfg.npus_count).1
          (mesh2d_flat_dims cfg.npus_count).2)
    | .SparseMesh2D =>
      if cfg.mesh_width > 0 ∧ cfg.mesh_height > 0 then
        if cfg.npu_placement.isEmpty then
          some (.SparseMesh2DBuilt
            (SparseMesh2D_auto cfg.mesh_width cfg.mesh_height cfg.excluded_coords))
        else
          some (.SparseMesh2DBuilt
            (SparseMesh2D_custom cfg.mesh_width cfg.mesh_height cfg.excluded_coords
              cfg.npu_placement))
      else none

/-! ## XY routing lemmas (Mesh2D) -/

theorem route_walk_x_length (width dest_x x y : Int) :
    (route_walk_x width dest_x x y).length = (dest_x - x).natAbs := by
  induction x, y using route_walk_x.induct width dest_x with
  | case1 y =>
    rw [route_walk_x]
    simp
  | case2 x y hne ih =>
    rw [route_walk_x, dif_neg hne]
    simp only [dite_eq_ite] at ih
    simp only [List.length_cons, ih]
    split <;> omega

theorem route_walk_y_length (width dest_y x y : Int) :
    (route_walk_y width dest_y x y).length = (dest_y - y).natAbs := by
  induction y using route_walk_y.induct width dest_y x with
  | case1 =>
    rw [route_walk_y]
    simp
  | case2 y hne ih =>
    rw [route_walk_y, dif_neg hne]
    simp only [dite_eq_ite] at ih
    simp only [List.length_cons, ih]
    split <;> omega

theorem route_walk_x_mem (width dest_x x y a : Int) :
    a ∈ route_walk_x width dest_x x y ↔
      ∃ t, ((x < t ∧ t ≤ dest_x) ∨ (dest_x ≤ t ∧ t < x)) ∧
        a = coords_to_npu_id width t y := by
  induction x, y using route_walk_x.induct width dest_x with
  | case1 y =>
    rw [route_walk_x]
    simp only [dif_pos, List.not_mem_nil, false_iff, not_exists]
    rintro t ⟨ht, -⟩
    omega
  | case2 x y hne ih =>
    rw [route_walk_x, dif_neg hne]
    simp only [dite_eq_ite] at ih
    simp only [List.mem_cons, ih]
    clear ih
    by_cases hgt : dest_x > x
    · simp only [if_pos hgt]
      constructor
      · rintro (rfl | ⟨t, ht, rfl⟩)
        · refine ⟨x + 1, ?_, rfl⟩
          omega
        · refine ⟨t, ?_, rfl⟩
          omega
      · rintro ⟨t, ht, rfl⟩
        by_cases hteq : t = x + 1
        · subst hteq
          exact Or.inl rfl
        · refine Or.inr ⟨t, ?_, rfl⟩
          omega
    · simp only [if_neg hgt]
      constructor
      · rintro (rfl | ⟨t, ht, rfl⟩)
        · refine ⟨x - 1, ?_, rfl⟩
          omega
        · refine ⟨t, ?_, rfl⟩
          omega
      · rintro ⟨t, ht, rfl⟩
        by_cases hteq : t = x - 1
        · subst hteq
          exact Or.inl rfl
        · refine Or.inr ⟨t, ?_, rfl⟩
          omega

theorem route_walk_y_mem (width dest_y x y a : Int) :
    a ∈ route_walk_y width dest_y x y ↔
      ∃ t, ((y < t ∧ t ≤ dest_y) ∨ (dest_y ≤ t ∧ t < y)) ∧
        a = coords_to_npu_id width x t := by
  induction y using route_walk_y.induct width dest_y x with
  | case1 =>
    rw [route_walk_y]
    simp only [dif_pos, List.not_mem_nil, false_iff, not_exists]
    rintro t ⟨ht, -⟩
    omega
  | case2 y hne ih =>
    rw [route_walk_y, dif_neg hne]
    simp only [dite_eq_ite] at ih
    simp only [List.mem_cons, ih]
    clear ih
    by_cases hgt : dest_y > y
    · simp only [if_pos hgt]
      constructor
      · rintro (rfl | ⟨t, ht, rfl⟩)
        · refine ⟨y + 1, ?_, rfl⟩
          omega
        · refine ⟨t, ?_, rfl⟩
          omega
      · rintro ⟨t, ht, rfl⟩
        by_cases hteq : t = y + 1
        · subst hteq
          exact Or.inl rfl
        · refine Or.inr ⟨t, ?_, rfl⟩
          omega
    · simp only [if_neg hgt]
      constructor
      · rintro (rfl | ⟨t, ht, rfl⟩)
        · refine ⟨y - 1, ?_, rfl⟩
          omega
        · refine ⟨t, ?_, rfl⟩
          omega
      · rintro ⟨t, ht, rfl⟩
        by_cases hteq : t = y - 1
        · subst hteq
          exact Or.inl rfl
        · refine Or.inr ⟨t, ?_, rfl⟩
          omega

theorem route_walk_x_nodup (width dest_x x y : Int) :
    (route_walk_x width dest_x x y).Nodup := by
  induction x, y using route_walk_x.induct width dest_x with
  | case1 y =>
    rw [route_walk_x]
    simp
  | case2 x y hne ih =>
    rw [route_walk_x, dif_neg hne]
    refine List.nodup_cons.mpr ⟨?_, ih⟩
    rw [route_walk_x_mem]
    rintro ⟨t, ht, hid⟩
    simp only [coords_to_npu_id] at hid
    have : t = x + if dest_x > x then 1 else -1 := by omega
    split at ht <;> omega

theorem route_walk_y_nodup (width dest_y x y : Int) (hW : width ≠ 0) :
    (route_walk_y width dest_y x y).Nodup := by
  induction y using route_walk_y.induct width dest_y x with
  | case1 =>
    rw [route_walk_y]
    simp
  | case2 y hne ih =>
    rw [route_walk_y, dif_neg hne]
    refine List.nodup_cons.mpr ⟨?_, ih⟩
    rw [route_walk_y_mem]
    rintro ⟨t, ht, hid⟩
    simp only [coords_to_npu_id] at hid
    have hmul : t * width = (y + if dest_y > y then 1 else -1) * width := by linarith
    have : t = y + if dest_y > y then 1 else -1 := mul_right_cancel₀ hW hmul
    split at ht <;> omega

/-- Two NPU IDs with in-range column coordinates agree only when both
coordinates agree. -/
theorem coords_id_inj {width x1 y1 x2 y2 : Int} (hW : 0 < width)
    (hx1 : 0 ≤ x1) (hx1w : x1 < width) (hx2 : 0 ≤ x2) (hx2w : x2 < width)
    (heq : coords_to_npu_id width x1 y1 = coords_to_npu_id width x2 y2) :
    x1 = x2 ∧ y1 = y2 := by
  simp only [coords_to_npu_id] at heq
  have key : (y1 - y2) * width = x2 - x1 := by linarith
  by_cases hy : y1 = y2
  · subst hy
    exact ⟨by omega, rfl⟩
  · exfalso
    have habs : 1 ≤ |y1 - y2| := Int.one_le_abs (by omega)
    have hbig : width ≤ |(y1 - y2) * width| := by
      rw [abs_mul, abs_of_pos hW]
      exact le_mul_of_one_le_left (le_of_lt hW) habs
    rw [key] at hbig
    have hsmall : |x2 - x1| < width := abs_lt.mpr ⟨by omega, by omega⟩
    omega

/-- The linear ID really is `coords_to_npu_id` of its own decomposition. -/
theorem id_of_coords (width src : Int) :
    coords_to_npu_id width (src % width) (src / width) = src := by
  simp only [coords_to_npu_id]
  rw [mul_comm]
  exact Int.ediv_add_emod src width

/-- C1: on a dense W×H mesh, for valid endpoints the XY route's hop count
(length minus one) equals the Manhattan distance, and no device is visited
twice. -/
theorem C1_xy_route (width height src dest : Int) (hW : 0 < width) (hH : 0 < height)
    (hs0 : 0 ≤ src) (hs1 : src < width * height)
    (hd0 : 0 ≤ dest) (hd1 : dest < width * height) :
    ((mesh2d_route width src dest).length : Int) =
      manhattan_distance width src dest + 1 ∧
    (mesh2d_route width src dest).Nodup := by
  have hWne : width ≠ 0 := ne_of_gt hW
  by_cases hsd : src = dest
  · subst hsd
    constructor
    · simp [mesh2d_route, manhattan_distance, get_2d_coords]
    · simp [mesh2d_route]
  · have hsx0 : 0 ≤ src % width := Int.emod_nonneg src hWne
    have hsx1 : src % width < width := Int.emod_lt_of_pos src hW
    have hdx0 : 0 ≤ dest % width := Int.emod_nonneg dest hWne
    have hdx1 : dest % width < width := Int.emod_lt_of_pos dest hW
    constructor
    · simp only [mesh2d_route, if_neg hsd, get_2d_coords, List.length_cons,
        List.length_append, route_walk_x_length, route_walk_y_length,
        manhattan_distance]
      push_cast
      ring
    · simp only [mesh2d_route, if_neg hsd, get_2d_coords]
      refine List.nodup_cons.mpr ⟨?_, ?_⟩
      · rw [List.mem_append]
        rintro (hx | hy)
        · rw [route_walk_x_mem] at hx
          obtain ⟨t, ht, hid⟩ := hx
          have h2 : coords_to_npu_id width t (src / width) =
              coords_to_npu_id width (src % width) (src / width) := by
            rw [id_of_coords]
            exact hid.symm
          simp only [coords_to_npu_id] at h2
          omega
        · rw [route_walk_y_mem] at hy
          obtain ⟨t, ht, hid⟩ := hy
          have h2 : coords_to_npu_id width (dest % width) t =
              coords_to_npu_id width (src % width) (src / width) := by
            rw [id_of_coords]
            exact hid.symm
          have := coords_id_inj hW hdx0 hdx1 hsx0 hsx1 h2
          omega
      · refine List.nodup_append.mpr ⟨route_walk_x_nodup _ _ _ _,
          route_walk_y_nodup _ _ _ _ hWne, ?_⟩
        intro a hax hay
        rw [route_walk_x_mem] at hax
        rw [route_walk_y_mem] at hay
        obtain ⟨t, ht, rfl⟩ := hax
        obtain ⟨u, hu, hid⟩ := hay
        have htb : 0 ≤ t ∧ t < width := by omega
        have := coords_id_inj hW htb.1 htb.2 hdx0 hdx1 hid
        omega

/-- C1 witness: the 4×3 mesh route from NPU 0 to NPU 11 has 5 hops and no
repeated device. -/
theorem C1_xy_route_witness :
    ((0 : Int) < 4 ∧ (0 : Int) < 3 ∧ (0 : Int) ≤ 0 ∧ (0 : Int) < 4 * 3 ∧
      (0 : Int) ≤ 11 ∧ (11 : Int) < 4 * 3) ∧
    (((mesh2d_route 4 0 11).length : Int) = manhattan_distance 4 0 11 + 1 ∧
      (mesh2d_route 4 0 11).Nodup) :=
  ⟨⟨by decide, by decide, by decide, by decide, by decide, by decide⟩,
    C1_xy_route 4 3 0 11 (by decide) (by decide) (by decide) (by decide)
      (by decide) (by decide)⟩

/-! ## Generic counting helpers -/

theorem foldl_count_excluded (width height : Int) :
    ∀ (l : List Coord) (a : Int),
      l.foldl
        (fun acc c =>
          if 0 ≤ c.1 ∧ c.1 < width ∧ 0 ≤ c.2 ∧ c.2 < height then acc + 1 else acc) a =
      a + ((l.filter
        (fun c => decide (0 ≤ c.1 ∧ c.1 < width ∧ 0 ≤ c.2 ∧ c.2 < height))).length : Int) := by
  intro l
  induction l with
  | nil => intro a; simp
  | cons c rest ih =>
    intro a
    by_cases hc : 0 ≤ c.1 ∧ c.1 < width ∧ 0 ≤ c.2 ∧ c.2 < height
    · simp only [List.foldl_cons, if_pos hc, ih, List.filter_cons, decide_eq_true hc,
        if_true, List.length_cons]
      push_cast
      ring
    · simp only [List.foldl_cons, if_neg hc, ih, List.filter_cons, decide_eq_false hc,
        Bool.false_eq_true, if_false]

/-- C4: for every sparse mesh, the valid device count equals `width*height`
minus the number of excluded coordinates lying within grid bounds; excluded
coordinates outside the bounds do not reduce the count. -/
theorem C4_valid_count (width height : Int) (excluded : List Coord)
    (hnd : excluded.Nodup) :
    calculate_valid_npu_count width height excluded =
      width * height -
        ((excluded.toFinset.filter
          (fun c => 0 ≤ c.1 ∧ c.1 < width ∧ 0 ≤ c.2 ∧ c.2 < height)).card : Int) := by
  have hfold := foldl_count_excluded width height excluded 0
  have hset :
      excluded.toFinset.filter
        (fun c => 0 ≤ c.1 ∧ c.1 < width ∧ 0 ≤ c.2 ∧ c.2 < height) =
      (excluded.filter
        (fun c => decide (0 ≤ c.1 ∧ c.1 < width ∧ 0 ≤ c.2 ∧ c.2 < height))).toFinset := by
    ext c
    simp [List.mem_filter]
  have hcard :
      (excluded.toFinset.filter
        (fun c => 0 ≤ c.1 ∧ c.1 < width ∧ 0 ≤ c.2 ∧ c.2 < height)).card =
      (excluded.filter
        (fun c => decide (0 ≤ c.1 ∧ c.1 < width ∧ 0 ≤ c.2 ∧ c.2 < height))).length := by
    rw [hset]
    exact List.toFinset_card_of_nodup (hnd.filter _)
  simp only [calculate_valid_npu_count, hfold, hcard]
  ring

/-- C4 witness: a concrete 3×2 grid with one in-bounds and one out-of-bounds
excluded coordinate. -/
theorem C4_valid_count_witness :
    ([((1 : Int), (0 : Int)), (5, 5)] : List Coord).Nodup ∧
      calculate_valid_npu_count 3 2 [(1, 0), (5, 5)] =
        3 * 2 -
          ((([((1 : Int), (0 : Int)), (5, 5)] : List Coord).toFinset.filter
            (fun c => 0 ≤ c.1 ∧ c.1 < 3 ∧ 0 ≤ c.2 ∧ c.2 < 2)).card : Int) :=
  ⟨by decide, C4_valid_count 3 2 [(1, 0), (5, 5)] (by decide)⟩

/-- C5: the flat-count dense-mesh constructor picks
`width = height = floor(sqrt(npus_count))`, silently discarding the surplus;
in particular both 16 and 17 requested devices yield a 4×4 grid. -/
theorem C5_flat_constructor (npus_count : Int) (h : 0 ≤ npus_count) :
    (mesh2d_flat_dims npus_count).1 = (mesh2d_flat_dims npus_count).2 ∧
    (mesh2d_flat_dims npus_count).1 ^ 2 ≤ npus_count ∧
    npus_count < ((mesh2d_flat_dims npus_count).1 + 1) ^ 2 ∧
    mesh2d_flat_dims 16 = (4, 4) ∧
    mesh2d_flat_dims 17 = (4, 4) := by
  have h16 : Nat.sqrt 16 = 4 :=
    (Nat.eq_sqrt.mpr (by norm_num)).symm
  have h17 : Nat.sqrt 17 = 4 :=
    (Nat.eq_sqrt.mpr (by norm_num)).symm
  refine ⟨rfl, ?_, ?_, by simp [mesh2d_flat_dims, h16], by simp [mesh2d_flat_dims, h17]⟩
  · have hle := Nat.sqrt_le' npus_count.toNat
    have hc : ((Nat.sqrt npus_count.toNat : Int)) ^ 2 ≤ (npus_count.toNat : Int) := by
      exact_mod_cast hle
    have ht : (npus_count.toNat : Int) = npus_count := by omega
    simpa [mesh2d_flat_dims, ht] using hc
  · have hlt := Nat.lt_succ_sqrt' npus_count.toNat
    have hc : (npus_count.toNat : Int) < ((Nat.sqrt npus_count.toNat : Int) + 1) ^ 2 := by
      exact_mod_cast hlt
    have ht : (npus_count.toNat : Int) = npus_count := by omega
    rw [ht] at hc
    simpa [mesh2d_flat_dims] using hc

/-- C5 witness: instantiated at the non-perfect-square count 17. -/
theorem C5_flat_constructor_witness :
    (0 : Int) ≤ 17 ∧
      ((mesh2d_flat_dims 17).1 = (mesh2d_flat_dims 17).2 ∧
       (mesh2d_flat_dims 17).1 ^ 2 ≤ 17 ∧
       (17 : Int) < ((mesh2d_flat_dims 17).1 + 1) ^ 2 ∧
       mesh2d_flat_dims 16 = (4, 4) ∧
       mesh2d_flat_dims 17 = (4, 4)) :=
  ⟨by decide, C5_flat_constructor 17 (by decide)⟩

/-- C6: on both the dense mesh and the sparse mesh, routing a device to
itself yields the single-element route containing only that device. -/
theorem C6_route_self (width src : Int) (m : SparseMesh) (src' : Int) :
    mesh2d_route width src src = [src] ∧ m.route src' src' = [src'] := by
  constructor
  · simp [mesh2d_route]
  · simp [SparseMesh.route]

/-- C9: a one-dimensional dense-mesh request uses the explicit
width × height when both are positive (regardless of the flat device count),
and otherwise falls back to the square mesh derived from the flat count. -/
theorem C9_selector_dense (cfg : NetworkConfig)
    (hdim : cfg.dims_count = 1) (htag : cfg.topology_type = .Mesh2D) :
    (0 < cfg.mesh_width ∧ 0 < cfg.mesh_height →
      construct_topology cfg =
        some (.DenseMesh cfg.mesh_width cfg.mesh_height)) ∧
    (¬(0 < cfg.mesh_width ∧ 0 < cfg.mesh_height) →
      construct_topology cfg =
        some (.DenseMesh (mesh2d_flat_dims cfg.npus_count).1
          (mesh2d_flat_dims cfg.npus_count).2)) := by
  constructor
  · intro hpos
    simp [construct_topology, hdim, htag, hpos.1, hpos.2]
  · intro hneg
    have : ¬(cfg.mesh_width > 0 ∧ cfg.mesh_height > 0) := hneg
    simp only [construct_topology, hdim]
    rw [if_neg (by omega), htag]
    simp only [if_neg this]

/-- C9 witness: a config carrying width 5, height 3 and a disagreeing flat
count 7 builds the 5×3 mesh. -/
theorem C9_selector_dense_witness :
    (NetworkConfig.mk 1 .Mesh2D 7 5 3 [] []).dims_count = 1 ∧
    (NetworkConfig.mk 1 .Mesh2D 7 5 3 [] []).topology_type = .Mesh2D ∧
    construct_topology (NetworkConfig.mk 1 .Mesh2D 7 5 3 [] []) =
      some (.DenseMesh 5 3) := by
  refine ⟨rfl, rfl, ?_⟩
  exact (C9_selector_dense (NetworkConfig.mk 1 .Mesh2D 7 5 3 [] []) rfl rfl).1
    (by constructor <;> decide)


/-! ## Mesh2D link-creation lemmas (C7) -/

theorem mesh2d_links_eq (width height : Int) :
    mesh2d_links width height =
      (int_range height).flatMap (fun y =>
        (int_range width).flatMap (fun x => mesh_cell_links width height x y)) := rfl

theorem mem_mesh_cell_links {W H x y : Int} {l : Int × Int} :
    l ∈ mesh_cell_links W H x y ↔
      (x + 1 < W ∧ (l = (coords_to_npu_id W x y, coords_to_npu_id W (x + 1) y) ∨
                    l = (coords_to_npu_id W (x + 1) y, coords_to_npu_id W x y))) ∨
      (y + 1 < H ∧ (l = (coords_to_npu_id W x y, coords_to_npu_id W x (y + 1)) ∨
                    l = (coords_to_npu_id W x (y + 1), coords_to_npu_id W x y))) := by
  simp only [mesh_cell_links, List.mem_append]
  by_cases h1 : x + 1 < W <;> by_cases h2 : y + 1 < H <;> simp [h1, h2]

theorem mesh_cell_links_min {W H x y : Int} {l : Int × Int} (hW : 0 < W)
    (hl : l ∈ mesh_cell_links W H x y) :
    min l.1 l.2 = coords_to_npu_id W x y := by
  rcases mem_mesh_cell_links.mp hl with ⟨hc, rfl | rfl⟩ | ⟨hc, rfl | rfl⟩ <;>
    simp only [coords_to_npu_id] <;> ring_nf <;> omega

theorem mesh_cell_links_nodup {W H x y : Int} (hW : 0 < W) (hx : 0 ≤ x) :
    (mesh_cell_links W H x y).Nodup := by
  simp only [mesh_cell_links]
  by_cases h1 : x + 1 < W <;> by_cases h2 : y + 1 < H <;>
    simp [h1, h2, coords_to_npu_id, Prod.ext_iff] <;> ring_nf <;> omega

theorem mesh_row_links_nodup (W H y : Int) (hW : 0 < W) :
    ((int_range W).flatMap (fun x => mesh_cell_links W H x y)).Nodup := by
  rw [List.nodup_flatMap]
  constructor
  · intro x hx
    exact mesh_cell_links_nodup hW (mem_int_range.mp hx).1
  · rw [int_range, List.pairwise_map]
    refine (List.pairwise_lt_range _).imp ?_
    intro i j hij l hl1 hl2
    have e1 := mesh_cell_links_min hW hl1
    have e2 := mesh_cell_links_min hW hl2
    rw [e1] at e2
    simp only [coords_to_npu_id] at e2
    omega

/-- C7 part: the directed link list of the dense-mesh constructor has no
duplicate entry (no grid-adjacent pair is connected twice). -/
theorem mesh2d_links_nodup (W H : Int) (hW : 0 < W) : (mesh2d_links W H).Nodup := by
  rw [mesh2d_links_eq, List.nodup_flatMap]
  constructor
  · intro y hy
    exact mesh_row_links_nodup W H y hW
  · rw [show int_range H = (List.range H.toNat).map (fun i : Nat => (i : Int)) from rfl,
      List.pairwise_map]
    refine (List.pairwise_lt_range _).imp ?_
    intro j1 j2 hj l hl1 hl2
    obtain ⟨x1, hx1, hc1⟩ := List.mem_flatMap.mp hl1
    obtain ⟨x2, hx2, hc2⟩ := List.mem_flatMap.mp hl2
    have b1 := mem_int_range.mp hx1
    have b2 := mem_int_range.mp hx2
    have e1 := mesh_cell_links_min hW hc1
    have e2 := mesh_cell_links_min hW hc2
    rw [e1] at e2
    have := coords_id_inj hW b1.1 b1.2 b2.1 b2.2 e2
    omega

theorem mesh_cell_links_length (W H x y : Int) :
    (mesh_cell_links W H x y).length =
      (if x + 1 < W then 2 else 0) + (if y + 1 < H then 2 else 0) := by
  simp only [mesh_cell_links, List.length_append, apply_ite List.length,
    List.length_cons, List.length_nil]

theorem sum_ite_plus_const (T : Int) (a b : Nat) : ∀ n : Nat,
    ((List.range n).map (fun j : Nat =>
        (if ((j : Int)) + 1 < T then b else 0) + a)).sum
      = min n (T.toNat - 1) * b + n * a := by
  intro n
  induction n with
  | zero => simp
  | succ n ih =>
    rw [List.range_succ, List.map_append, List.sum_append]
    simp only [List.map_cons, List.map_nil, List.sum_cons, List.sum_nil, ih]
    by_cases h : ((n : Int)) + 1 < T
    · have h1 : min n (T.toNat - 1) = n := min_eq_left (by omega)
      have h2 : min (n + 1) (T.toNat - 1) = n + 1 := min_eq_left (by omega)
      rw [if_pos h, h1, h2]
      ring
    · have h1 : min n (T.toNat - 1) = T.toNat - 1 := min_eq_right (by omega)
      have h2 : min (n + 1) (T.toNat - 1) = T.toNat - 1 := min_eq_right (by omega)
      rw [if_neg h, h1, h2]
      ring

theorem sum_const_plus_ite (T : Int) (a b : Nat) : ∀ n : Nat,
    ((List.range n).map (fun j : Nat =>
        a + (if ((j : Int)) + 1 < T then b else 0))).sum
      = n * a + min n (T.toNat - 1) * b := by
  intro n
  induction n with
  | zero => simp
  | succ n ih =>
    rw [List.range_succ, List.map_append, List.sum_append]
    simp only [List.map_cons, List.map_nil, List.sum_cons, List.sum_nil, ih]
    by_cases h : ((n : Int)) + 1 < T
    · have h1 : min n (T.toNat - 1) = n := min_eq_left (by omega)
      have h2 : min (n + 1) (T.toNat - 1) = n + 1 := min_eq_left (by omega)
      rw [if_pos h, h1, h2]
      ring
    · have h1 : min n (T.toNat - 1) = T.toNat - 1 := min_eq_right (by omega)
      have h2 : min (n + 1) (T.toNat - 1) = T.toNat - 1 := min_eq_right (by omega)
      rw [if_neg h, h1, h2]
      ring

theorem mesh2d_links_length (W H : Int) (hW : 0 < W) (hH : 0 < H) :
    ((mesh2d_links W H).length : Int) = 2 * (W * (H - 1) + H * (W - 1)) := by
  rw [mesh2d_links_eq, List.length_flatMap]
  simp only [Function.comp_def, List.length_flatMap, mesh_cell_links_length, int_range,
    List.map_map]
  simp only [sum_ite_plus_const, mul_ite, mul_zero]
  simp only [sum_const_plus_ite]
  have hw1 : min W.toNat (W.toNat - 1) = W.toNat - 1 := min_eq_right (by omega)
  have hh1 : min H.toNat (H.toNat - 1) = H.toNat - 1 := min_eq_right (by omega)
  rw [hw1, hh1]
  have e1 : ((W.toNat : Int)) = W := Int.toNat_of_nonneg (by omega)
  have e2 : ((H.toNat : Int)) = H := Int.toNat_of_nonneg (by omega)
  push_cast [Nat.cast_sub (by omega : 1 ≤ W.toNat), Nat.cast_sub (by omega : 1 ≤ H.toNat)]
  rw [e1, e2]
  ring

/-- C7: dense-mesh construction creates exactly
`2 * (W*(H-1) + H*(W-1))` directed links, each position connecting
bidirectionally to its existing right and bottom neighbors only, with no
directed link created twice. -/
theorem C7_mesh2d_links (W H : Int) (hW : 0 < W) (hH : 0 < H) :
    ((mesh2d_links W H).length : Int) = 2 * (W * (H - 1) + H * (W - 1)) ∧
    (∀ l : Int × Int, l ∈ mesh2d_links W H ↔
      ∃ x y, 0 ≤ x ∧ x < W ∧ 0 ≤ y ∧ y < H ∧
        ((x + 1 < W ∧ (l = (coords_to_npu_id W x y, coords_to_npu_id W (x + 1) y) ∨
                       l = (coords_to_npu_id W (x + 1) y, coords_to_npu_id W x y))) ∨
         (y + 1 < H ∧ (l = (coords_to_npu_id W x y, coords_to_npu_id W x (y + 1)) ∨
                       l = (coords_to_npu_id W x (y + 1), coords_to_npu_id W x y))))) ∧
    (mesh2d_links W H).Nodup := by
  refine ⟨mesh2d_links_length W H hW hH, ?_, mesh2d_links_nodup W H hW⟩
  intro l
  rw [mesh2d_links_eq]
  simp only [List.mem_flatMap, mem_int_range, mem_mesh_cell_links]
  constructor
  · rintro ⟨y, hy, x, hx, hin⟩
    exact ⟨x, y, hx.1, hx.2, hy.1, hy.2, hin⟩
  · rintro ⟨x, y, hx0, hxW, hy0, hyH, hin⟩
    exact ⟨y, ⟨hy0, hyH⟩, x, ⟨hx0, hxW⟩, hin⟩

/-- C7 witness: the 4×3 mesh has 34 directed links, the top-left corner
links to NPUs 1 and 4, and the list is duplicate-free. -/
theorem C7_mesh2d_links_witness :
    (0 : Int) < 4 ∧ (0 : Int) < 3 ∧
    ((mesh2d_links 4 3).length : Int) = 2 * (4 * (3 - 1) + 3 * (4 - 1)) ∧
    ((0, 1) ∈ mesh2d_links 4 3) ∧
    (mesh2d_links 4 3).Nodup := by
  have h := C7_mesh2d_links 4 3 (by decide) (by decide)
  refine ⟨by decide, by decide, h.1, ?_, h.2.2⟩
  exact (h.2.1 (0, 1)).mpr
    ⟨0, 0, by decide, by decide, by decide, by decide,
      Or.inl ⟨by decide, Or.inl (by decide)⟩⟩


/-! ## Sparse-mesh construction lemmas (C3, C10) -/

theorem int_range_nodup (n : Int) : (int_range n).Nodup := by
  refine (List.nodup_range n.toNat).map ?_
  intro a b hab
  have hab' : ((a : Int)) = b := hab
  exact_mod_cast hab' 

theorem row_major_coords_nodup (W H : Int) : (row_major_coords W H).Nodup := by
  rw [row_major_coords, List.nodup_flatMap]
  constructor
  · intro y hy
    refine (int_range_nodup W).map ?_
    intro a b hab
    exact (Prod.mk.injEq _ _ _ _).mp hab |>.1
  · rw [show int_range H = (List.range H.toNat).map (fun i : Nat => (i : Int)) from rfl,
      List.pairwise_map]
    refine (List.pairwise_lt_range _).imp ?_
    intro j1 j2 hj l hl1 hl2
    obtain ⟨x1, hx1, he1⟩ := List.mem_map.mp hl1
    obtain ⟨x2, hx2, he2⟩ := List.mem_map.mp hl2
    rw [← he2] at he1
    have := (Prod.mk.injEq _ _ _ _).mp he1 |>.2
    omega

theorem length_filter_split {α : Type} (p : α → Bool) :
    ∀ l : List α, (l.filter p).length + (l.filter (fun a => !(p a))).length = l.length := by
  intro l
  induction l with
  | nil => simp
  | cons a rest ih =>
    by_cases h : p a = true
    · simp [List.filter_cons, h, ih]
      omega
    · have h' : p a = false := by
        revert h
        cases p a <;> simp
      simp [List.filter_cons, h', ih]
      omega

theorem row_major_coords_length (W H : Int) :
    (row_major_coords W H).length = H.toNat * W.toNat := by
  rw [row_major_coords, List.length_flatMap]
  simp only [Function.comp_def, int_range, List.map_map, List.length_map, List.length_range]
  have hsum : ∀ n : Nat, ((List.range n).map (fun _ : Nat => W.toNat)).sum = n * W.toNat := by
    intro n
    induction n with
    | zero => simp
    | succ n ih =>
      rw [List.range_succ, List.map_append, List.sum_append]
      simp [ih, Nat.succ_mul]
  exact hsum H.toNat

/-- The number of valid (in-bounds, non-excluded) positions equals the
`calculate_valid_npu_count` formula. -/
theorem valid_scan_count (W H : Int) (E : List Coord) (hW : 0 < W) (hH : 0 < H)
    (hnd : E.Nodup) :
    (((row_major_coords W H).filter (fun c => decide (c ∉ E))).length : Int) =
      calculate_valid_npu_count W H E := by
  have hsplit := length_filter_split (fun c => decide (c ∉ E)) (row_major_coords W H)
  have hmemfix : (row_major_coords W H).filter (fun c => !(decide (c ∉ E))) =
      (row_major_coords W H).filter (fun c => decide (c ∈ E)) := by
    refine List.filter_congr ?_
    intro c hc
    by_cases h : c ∈ E <;> simp [h]
  rw [hmemfix] at hsplit
  have hEcount : ((row_major_coords W H).filter (fun c => decide (c ∈ E))).length =
      (E.filter (fun c =>
        decide (0 ≤ c.1 ∧ c.1 < W ∧ 0 ≤ c.2 ∧ c.2 < H))).length := by
    have hset : ((row_major_coords W H).filter (fun c => decide (c ∈ E))).toFinset =
        (E.filter (fun c =>
          decide (0 ≤ c.1 ∧ c.1 < W ∧ 0 ≤ c.2 ∧ c.2 < H))).toFinset := by
      ext c
      simp only [List.mem_toFinset, List.mem_filter, decide_eq_true_eq,
        mem_row_major_coords]
      constructor
      · rintro ⟨hb, hE⟩
        exact ⟨hE, hb.1, hb.2.1, hb.2.2.1, hb.2.2.2⟩
      · rintro ⟨hE, hb⟩
        exact ⟨⟨hb.1, hb.2.1, hb.2.2.1, hb.2.2.2⟩, hE⟩
    have h1 := List.toFinset_card_of_nodup
      ((row_major_coords_nodup W H).filter (fun c => decide (c ∈ E)))
    have h2 := List.toFinset_card_of_nodup
      (hnd.filter (fun c => decide (0 ≤ c.1 ∧ c.1 < W ∧ 0 ≤ c.2 ∧ c.2 < H)))
    rw [← h1, ← h2, hset]
  have hfold := foldl_count_excluded W H E 0
  have hrml := row_major_coords_length W H
  simp only [calculate_valid_npu_count, hfold]
  have e1 : ((W.toNat : Int)) = W := Int.toNat_of_nonneg (by omega)
  have e2 : ((H.toNat : Int)) = H := Int.toNat_of_nonneg (by omega)
  have : W * H = ((H.toNat * W.toNat : Nat) : Int) := by
    push_cast
    rw [e1, e2]
    ring
  rw [this]
  omega

/-- Full characterization of the auto-numbering scan fold over a
duplicate-free coordinate list. -/
theorem auto_fold_spec (E : List Coord) (l : List Coord) (hnd : l.Nodup) :
    (l.foldl (auto_assign_step E) auto_init).2.2 =
        (((l.filter (fun c => decide (c ∉ E))).length : Int)) ∧
    (∀ c ∈ l, c ∉ E →
        0 ≤ (l.foldl (auto_assign_step E) auto_init).1 c ∧
        (l.foldl (auto_assign_step E) auto_init).1 c <
          (l.foldl (auto_assign_step E) auto_init).2.2 ∧
        (l.foldl (auto_assign_step E) auto_init).2.1
          ((l.foldl (auto_assign_step E) auto_init).1 c) = c) ∧
    (∀ c, (c ∉ l ∨ c ∈ E) → (l.foldl (auto_assign_step E) auto_init).1 c = -1) ∧
    (∀ i, 0 ≤ i → i < (l.foldl (auto_assign_step E) auto_init).2.2 →
        (l.foldl (auto_assign_step E) auto_init).2.1 i ∈ l ∧
        (l.foldl (auto_assign_step E) auto_init).2.1 i ∉ E ∧
        (l.foldl (auto_assign_step E) auto_init).1
          ((l.foldl (auto_assign_step E) auto_init).2.1 i) = i) ∧
    (∀ i, ¬(0 ≤ i ∧ i < (l.foldl (auto_assign_step E) auto_init).2.2) →
        (l.foldl (auto_assign_step E) auto_init).2.1 i = ((0 : Int), (0 : Int))) := by
  induction l using List.reverseRecOn with
  | nil =>
    refine ⟨by simp [auto_init], by simp, fun c _ => rfl, by simp [auto_init], fun i _ => rfl⟩
  | append_singleton l c0 ih =>
    have hnd' : l.Nodup := by
      have := List.nodup_append.mp hnd
      exact this.1
    have hc0l : c0 ∉ l := by
      have := List.nodup_append.mp hnd
      intro hmem
      exact this.2.2 hmem (List.mem_singleton_self c0)
    obtain ⟨ha, hb, hc, hd, he⟩ := ih hnd'
    rw [List.foldl_append] at *
    set st := l.foldl (auto_assign_step E) auto_init with hst
    simp only [List.foldl_cons, List.foldl_nil]
    by_cases hc0 : c0 ∈ E
    · simp only [auto_assign_step, if_pos hc0]
      refine ⟨?_, ?_, ?_, ?_, he⟩
      · rw [List.filter_append, List.length_append, ha]
        simp [hc0]
      · intro c hcmem hcE
        rcases List.mem_append.mp hcmem with h | h
        · exact hb c h hcE
        · rw [List.mem_singleton.mp h] at hcE
          exact absurd hc0 hcE
      · intro c hcond
        refine hc c ?_
        rcases hcond with h | h
        · exact Or.inl (fun hm => h (List.mem_append_left _ hm))
        · exact Or.inr h
      · intro i h0 hik
        obtain ⟨m1, m2, m3⟩ := hd i h0 hik
        exact ⟨List.mem_append_left _ m1, m2, m3⟩
    · simp only [auto_assign_step, if_neg hc0]
      have hk0 : 0 ≤ st.2.2 := by
        rw [ha]
        positivity
      refine ⟨?_, ?_, ?_, ?_, ?_⟩
      · have hone : (List.filter (fun c => decide (c ∉ E)) [c0]).length = 1 := by
          simp [hc0]
        rw [List.filter_append, List.length_append, ha, hone]
        push_cast
        ring
      · intro c hcmem hcE
        rcases List.mem_append.mp hcmem with h | h
        · have hne : c ≠ c0 := fun he' => hc0l (he' ▸ h)
          obtain ⟨m1, m2, m3⟩ := hb c h hcE
          refine ⟨by simpa [hne] using m1, ?_, ?_⟩
          · simp only [if_neg hne]
            omega
          · simp only [if_neg hne]
            rw [if_neg (by omega)]
            exact m3
        · rw [List.mem_singleton.mp h]
          rw [if_pos rfl]
          exact ⟨hk0, by omega, if_pos rfl⟩
      · intro c hcond
        have hne : c ≠ c0 := by
          intro he'
          rcases hcond with h | h
          · refine h ?_
            rw [he']
            exact List.mem_append_right _ (List.mem_singleton_self c0)
          · exact hc0 (he' ▸ h)
        simp only [if_neg hne]
        refine hc c ?_
        rcases hcond with h | h
        · exact Or.inl (fun hm => h (List.mem_append_left _ hm))
        · exact Or.inr h
      · intro i h0 hik
        by_cases hik2 : i = st.2.2
        · subst hik2
          rw [if_pos rfl]
          exact ⟨List.mem_append_right _ (List.mem_singleton_self c0), hc0, if_pos rfl⟩
        · obtain ⟨m1, m2, m3⟩ := hd i h0 (by omega)
          have hmne : st.2.1 i ≠ c0 := fun he' => hc0l (he' ▸ m1)
          simp only [if_neg hik2, if_neg hmne]
          exact ⟨List.mem_append_left _ m1, m2, m3⟩
      · intro i hcond
        have h1 : i ≠ st.2.2 := by omega
        simp only [if_neg h1]
        exact he i (by omega)


/-! ## Custom-placement construction lemmas -/

theorem next_unused_id_spec (used : Finset Int) (k : Int) :
    next_unused_id used k ∉ used ∧ k ≤ next_unused_id used k ∧
      ∀ i, k ≤ i → i < next_unused_id used k → i ∈ used := by
  induction k using next_unused_id.induct used with
  | case1 k hk ih =>
    rw [next_unused_id, dif_pos hk]
    obtain ⟨ih1, ih2, ih3⟩ := ih
    refine ⟨ih1, by omega, ?_⟩
    intro i h1 h2
    by_cases hik : i = k
    · exact hik ▸ hk
    · exact ih3 i (by omega) h2
  | case2 k hk =>
    rw [next_unused_id, dif_neg hk]
    exact ⟨hk, le_refl k, fun i h1 h2 => absurd (lt_of_le_of_lt h1 h2) (lt_irrefl k)⟩

theorem valid_cells_card (W H : Int) (E : List Coord) (hW : 0 < W) (hH : 0 < H)
    (hnd : E.Nodup) :
    (((valid_cells W H E).card : Int)) = calculate_valid_npu_count W H E := by
  have hfc : (row_major_coords W H).filter
      (fun c => is_valid_position W H E c) =
      (row_major_coords W H).filter (fun c => decide (c ∉ E)) := by
    refine List.filter_congr ?_
    intro c hc
    have hb := mem_row_major_coords.mp hc
    simp only [is_valid_position, if_neg (by omega :
      ¬(c.1 < 0 ∨ W ≤ c.1 ∨ c.2 < 0 ∨ H ≤ c.2))]
  rw [valid_cells, hfc,
    List.toFinset_card_of_nodup ((row_major_coords_nodup W H).filter _)]
  exact valid_scan_count W H E hW hH hnd

/-- From the invariant plus totality of the forward assignment, the two
tables are a full bijection between valid coordinates and `[0, V)`. -/
theorem table_inv_bijection (W H : Int) (E : List Coord) (V : Int)
    (g : Coord → Int) (n : Int → Coord) (used : Finset Int)
    (hVcard : ((valid_cells W H E).card : Int) = V)
    (hinv : TableInv W H E V g n used)
    (hall : ∀ c, is_valid_position W H E c = true → 0 ≤ g c) :
    (∀ c, is_valid_position W H E c = true →
      0 ≤ g c ∧ g c < V ∧ n (g c) = c) ∧
    (∀ i, 0 ≤ i → i < V → is_valid_position W H E (n i) = true ∧ g (n i) = i) := by
  obtain ⟨j1, j2⟩ := hinv
  have hforward : ∀ c, is_valid_position W H E c = true →
      0 ≤ g c ∧ g c < V ∧ n (g c) = c := by
    intro c hval
    have h0 := hall c hval
    obtain ⟨-, hmem, hninv⟩ := j1 c h0
    obtain ⟨-, hlt, -, -⟩ := j2 _ hmem
    exact ⟨h0, hlt, hninv⟩
  refine ⟨hforward, ?_⟩
  have hsub : used ⊆ Finset.Ico 0 V := by
    intro i hi
    obtain ⟨h1, h2, -, -⟩ := j2 i hi
    exact Finset.mem_Ico.mpr ⟨h1, h2⟩
  have hcard : used.card = (valid_cells W H E).card := by
    refine Finset.card_bij (fun i _ => n i) ?_ ?_ ?_
    · intro i hi
      exact mem_valid_cells (j2 i hi).2.2.1
    · intro i hi j hj heq
      have heq' : n i = n j := heq
      have e1 := (j2 i hi).2.2.2
      have e2 := (j2 j hj).2.2.2
      rw [← e1, ← e2, heq']
    · intro c hc
      have hval : is_valid_position W H E c = true := by
        simp only [valid_cells, List.mem_toFinset, List.mem_filter] at hc
        exact hc.2
      obtain ⟨h0, hmem, hninv⟩ := j1 c (hall c hval)
      exact ⟨g c, hmem, hninv⟩
  have hicocard : (Finset.Ico (0 : Int) V).card = (valid_cells W H E).card := by
    rw [Int.card_Ico]
    omega
  have hused : used = Finset.Ico 0 V :=
    Finset.eq_of_subset_of_card_le hsub (by omega)
  intro i h1 h2
  have hi : i ∈ used := by
    rw [hused]
    exact Finset.mem_Ico.mpr ⟨h1, h2⟩
  exact ⟨(j2 i hi).2.2.1, (j2 i hi).2.2.2⟩

/-- When the number of used IDs reaches the valid count, every valid
coordinate is already assigned. -/
theorem table_surj_of_card (W H : Int) (E : List Coord) (V : Int)
    (g : Coord → Int) (n : Int → Coord) (used : Finset Int)
    (hVcard : ((valid_cells W H E).card : Int) = V)
    (hinv : TableInv W H E V g n used)
    (hcard : ((used.card : Int)) = V) :
    ∀ c, is_valid_position W H E c = true → 0 ≤ g c := by
  obtain ⟨j1, j2⟩ := hinv
  have hinj : Set.InjOn n used := by
    intro i hi j hj heq
    have e1 := (j2 i hi).2.2.2
    have e2 := (j2 j hj).2.2.2
    rw [← e1, ← e2, heq]
  have himg : used.image n ⊆ valid_cells W H E := by
    intro c hc
    obtain ⟨i, hi, rfl⟩ := Finset.mem_image.mp hc
    exact mem_valid_cells (j2 i hi).2.2.1
  have hicard : (used.image n).card = used.card := Finset.card_image_of_injOn hinj
  have heq : used.image n = valid_cells W H E := by
    refine Finset.eq_of_subset_of_card_le himg ?_
    omega
  intro c hval
  have hc : c ∈ used.image n := by
    rw [heq]
    exact mem_valid_cells hval
  obtain ⟨i, hi, hni⟩ := Finset.mem_image.mp hc
  have := (j2 i hi).2.2.2
  rw [hni] at this
  rw [this]
  exact (j2 i hi).1


/-- The placement-application fold preserves the table invariant, provided
the placement keys are duplicate-free and none of the already-assigned
coordinates reappears among the remaining keys. -/
theorem placement_fold_inv (W H : Int) (E : List Coord) (V : Int) :
    ∀ (P : List (Coord × Int)), (P.map Prod.fst).Nodup →
    ∀ (st : (Coord → Int) × (Int → Coord) × Finset Int),
      TableInv W H E V st.1 st.2.1 st.2.2 →
      (∀ i ∈ st.2.2, st.2.1 i ∉ P.map Prod.fst) →
      TableInv W H E V (P.foldl (placement_step W H E V) st).1
        (P.foldl (placement_step W H E V) st).2.1
        (P.foldl (placement_step W H E V) st).2.2 := by
  intro P
  induction P with
  | nil =>
    intro _ st hinv _
    exact hinv
  | cons e P' ih =>
    intro hnd st hinv hfresh
    obtain ⟨c0, id0⟩ := e
    have hnd' : (P'.map Prod.fst).Nodup := by
      rw [List.map_cons] at hnd
      exact (List.nodup_cons.mp hnd).2
    have hc0fresh : c0 ∉ P'.map Prod.fst := by
      rw [List.map_cons] at hnd
      exact (List.nodup_cons.mp hnd).1
    rw [List.foldl_cons]
    by_cases h1 : c0.1 < 0 ∨ W ≤ c0.1 ∨ c0.2 < 0 ∨ H ≤ c0.2
    · rw [show placement_step W H E V st (c0, id0) = st by
        simp only [placement_step, if_pos h1]]
      refine ih hnd' st hinv ?_
      intro i hi
      exact fun hmem => hfresh i hi (List.mem_cons_of_mem _ hmem)
    by_cases h2 : c0 ∈ E
    · rw [show placement_step W H E V st (c0, id0) = st by
        simp only [placement_step]
        rw [if_neg h1, if_pos h2]]
      refine ih hnd' st hinv ?_
      intro i hi
      exact fun hmem => hfresh i hi (List.mem_cons_of_mem _ hmem)
    by_cases h3 : id0 < 0 ∨ V ≤ id0
    · rw [show placement_step W H E V st (c0, id0) = st by
        simp only [placement_step]
        rw [if_neg h1, if_neg h2, if_pos h3]]
      refine ih hnd' st hinv ?_
      intro i hi
      exact fun hmem => hfresh i hi (List.mem_cons_of_mem _ hmem)
    by_cases h4 : id0 ∈ st.2.2
    · rw [show placement_step W H E V st (c0, id0) = st by
        simp only [placement_step]
        rw [if_neg h1, if_neg h2, if_neg h3, if_pos h4]]
      refine ih hnd' st hinv ?_
      intro i hi
      exact fun hmem => hfresh i hi (List.mem_cons_of_mem _ hmem)
    have hstep : placement_step W H E V st (c0, id0) =
        ((fun c' => if c' = c0 then id0 else st.1 c'),
         (fun i => if i = id0 then c0 else st.2.1 i),
         insert id0 st.2.2) := by
      simp only [placement_step]
      rw [if_neg h1, if_neg h2, if_neg h3, if_neg h4]
    rw [hstep]
    obtain ⟨j1, j2⟩ := hinv
    have hc0valid : is_valid_position W H E c0 = true := by
      rw [is_valid_position_iff]
      refine ⟨by omega, by omega, by omega, by omega, h2⟩
    refine ih hnd' _ ⟨?_, ?_⟩ ?_
    · intro c hgc
      dsimp only at hgc ⊢
      by_cases hcc : c = c0
      · subst hcc
        rw [if_pos rfl]
        exact ⟨hc0valid, Finset.mem_insert_self _ _, if_pos rfl⟩
      · rw [if_neg hcc] at hgc ⊢
        obtain ⟨m1, m2, m3⟩ := j1 c hgc
        have hne : st.1 c ≠ id0 := fun he' => h4 (he' ▸ m2)
        rw [if_neg hne]
        exact ⟨m1, Finset.mem_insert_of_mem m2, m3⟩
    · intro i hi
      dsimp only at hi ⊢
      by_cases hii : i = id0
      · subst hii
        rw [if_pos rfl, if_pos rfl]
        exact ⟨by omega, by omega, hc0valid, rfl⟩
      · have hi' : i ∈ st.2.2 := by
          rcases Finset.mem_insert.mp hi with h | h
          · exact absurd h hii
          · exact h
        obtain ⟨m1, m2, m3, m4⟩ := j2 i hi'
        rw [if_neg hii]
        have hne : st.2.1 i ≠ c0 :=
          fun he' => hfresh i hi' (he' ▸ List.mem_cons_self _ _)
        rw [if_neg hne]
        exact ⟨m1, m2, m3, m4⟩
    · intro i hi
      dsimp only at hi ⊢
      rcases Finset.mem_insert.mp hi with h | h
      · subst h
        rw [if_pos rfl]
        exact hc0fresh
      · rw [if_neg (fun he' : i = id0 => h4 (he' ▸ h))]
        exact fun hmem => hfresh i h (List.mem_cons_of_mem _ hmem)


/-- The auto-fill fallback fold preserves the table invariant, assigns every
valid scanned coordinate, and never un-assigns a coordinate.  The `next`
counter dominates the used-ID set from below throughout. -/
theorem backfill_fold_inv (W H : Int) (E : List Coord) (V : Int)
    (hVcard : ((valid_cells W H E).card : Int) = V) :
    ∀ (l : List Coord), (∀ c ∈ l, 0 ≤ c.1 ∧ c.1 < W ∧ 0 ≤ c.2 ∧ c.2 < H) →
    ∀ (st : (Coord → Int) × (Int → Coord) × Finset Int × Int),
      TableInv W H E V st.1 st.2.1 st.2.2.1 →
      (∀ i, 0 ≤ i → i < st.2.2.2 → i ∈ st.2.2.1) →
      0 ≤ st.2.2.2 →
      TableInv W H E V (l.foldl (backfill_step E) st).1
          (l.foldl (backfill_step E) st).2.1
          (l.foldl (backfill_step E) st).2.2.1 ∧
      (∀ c ∈ l, is_valid_position W H E c = true →
          0 ≤ (l.foldl (backfill_step E) st).1 c) ∧
      (∀ c, 0 ≤ st.1 c → 0 ≤ (l.foldl (backfill_step E) st).1 c) := by
  intro l
  induction l with
  | nil =>
    intro _ st hinv _ _
    exact ⟨hinv, by simp, fun c h => h⟩
  | cons c0 l' ih =>
    intro hl st hinv hK6 hnext
    have hl' : ∀ c ∈ l', 0 ≤ c.1 ∧ c.1 < W ∧ 0 ≤ c.2 ∧ c.2 < H :=
      fun c hc => hl c (List.mem_cons_of_mem _ hc)
    have hb0 := hl c0 (List.mem_cons_self _ _)
    rw [List.foldl_cons]
    by_cases h1 : c0 ∈ E
    · rw [show backfill_step E st c0 = st by simp only [backfill_step, if_pos h1]]
      obtain ⟨r1, r2, r3⟩ := ih hl' st hinv hK6 hnext
      refine ⟨r1, ?_, r3⟩
      intro c hc hval
      rcases List.mem_cons.mp hc with rfl | hc'
      · exact absurd (is_valid_position_iff.mp hval).2.2.2.2 (fun hn => hn h1)
      · exact r2 c hc' hval
    by_cases h2 : 0 ≤ st.1 c0
    · rw [show backfill_step E st c0 = st by
        simp only [backfill_step]
        rw [if_neg h1, if_pos h2]]
      obtain ⟨r1, r2, r3⟩ := ih hl' st hinv hK6 hnext
      refine ⟨r1, ?_, r3⟩
      intro c hc hval
      rcases List.mem_cons.mp hc with rfl | hc'
      · exact r3 c h2
      · exact r2 c hc' hval
    obtain ⟨hnu1, hnu2, hnu3⟩ := next_unused_id_spec st.2.2.1 st.2.2.2
    set a := next_unused_id st.2.2.1 st.2.2.2 with ha
    have ha0 : 0 ≤ a := le_trans hnext hnu2
    obtain ⟨j1, j2⟩ := hinv
    have hc0valid : is_valid_position W H E c0 = true := by
      rw [is_valid_position_iff]
      exact ⟨by omega, by omega, by omega, by omega, h1⟩
    have hinj : Set.InjOn st.2.1 st.2.2.1 := by
      intro i hi j hj heq
      have heq' : st.2.1 i = st.2.1 j := heq
      have e1 := (j2 i hi).2.2.2
      have e2 := (j2 j hj).2.2.2
      rw [← e1, ← e2, heq']
    have himg : st.2.2.1.image st.2.1 ⊆ (valid_cells W H E).erase c0 := by
      intro c hc
      obtain ⟨i, hi, rfl⟩ := Finset.mem_image.mp hc
      refine Finset.mem_erase.mpr ⟨?_, mem_valid_cells (j2 i hi).2.2.1⟩
      intro heq
      have := (j2 i hi).2.2.2
      rw [heq] at this
      exact h2 (this ▸ (j2 i hi).1)
    have hcard1 : st.2.2.1.card + 1 ≤ (valid_cells W H E).card := by
      have hi1 : (st.2.2.1.image st.2.1).card = st.2.2.1.card :=
        Finset.card_image_of_injOn hinj
      have hi2 := Finset.card_le_card himg
      have hi3 : ((valid_cells W H E).erase c0).card =
          (valid_cells W H E).card - 1 :=
        Finset.card_erase_of_mem (mem_valid_cells hc0valid)
      have hi4 : 0 < (valid_cells W H E).card :=
        Finset.card_pos.mpr ⟨c0, mem_valid_cells hc0valid⟩
      omega
    have hIco : Finset.Ico (0 : Int) a ⊆ st.2.2.1 := by
      intro i hi
      have hi' := Finset.mem_Ico.mp hi
      by_cases hcase : i < st.2.2.2
      · exact hK6 i hi'.1 hcase
      · exact hnu3 i (by omega) hi'.2
    have haV : a < V := by
      have h5 := Finset.card_le_card hIco
      rw [Int.card_Ico] at h5
      omega
    rw [show backfill_step E st c0 =
        ((fun c' => if c' = c0 then a else st.1 c'),
         (fun i => if i = a then c0 else st.2.1 i),
         insert a st.2.2.1, a + 1) by
      simp only [backfill_step]
      rw [if_neg h1, if_neg h2, ← ha]]
    have nj1 : ∀ c, 0 ≤ (if c = c0 then a else st.1 c) →
        is_valid_position W H E c = true ∧
        (if c = c0 then a else st.1 c) ∈ insert a st.2.2.1 ∧
        (if (if c = c0 then a else st.1 c) = a then c0
          else st.2.1 (if c = c0 then a else st.1 c)) = c := by
      intro c hgc
      by_cases hcc : c = c0
      · subst hcc
        rw [if_pos rfl]
        exact ⟨hc0valid, Finset.mem_insert_self _ _, if_pos rfl⟩
      · rw [if_neg hcc] at hgc ⊢
        obtain ⟨m1, m2, m3⟩ := j1 c hgc
        have hne : st.1 c ≠ a := fun he' => hnu1 (he' ▸ m2)
        rw [if_neg hne]
        exact ⟨m1, Finset.mem_insert_of_mem m2, m3⟩
    have nj2 : ∀ i ∈ insert a st.2.2.1, 0 ≤ i ∧ i < V ∧
        is_valid_position W H E (if i = a then c0 else st.2.1 i) = true ∧
        (if (if i = a then c0 else st.2.1 i) = c0 then a
          else st.1 (if i = a then c0 else st.2.1 i)) = i := by
      intro i hi
      by_cases hii : i = a
      · subst hii
        rw [if_pos rfl, if_pos rfl]
        exact ⟨ha0, haV, hc0valid, rfl⟩
      · have hi' : i ∈ st.2.2.1 := by
          rcases Finset.mem_insert.mp hi with h | h
          · exact absurd h hii
          · exact h
        obtain ⟨m1, m2, m3, m4⟩ := j2 i hi'
        rw [if_neg hii]
        have hne : st.2.1 i ≠ c0 := by
          intro heq
          rw [heq] at m4
          exact h2 (m4 ▸ m1)
        rw [if_neg hne]
        exact ⟨m1, m2, m3, m4⟩
    have nK6 : ∀ i, 0 ≤ i → i < a + 1 → i ∈ insert a st.2.2.1 := by
      intro i hi1 hi2
      by_cases hia : i = a
      · exact hia ▸ Finset.mem_insert_self _ _
      · by_cases hcase : i < st.2.2.2
        · exact Finset.mem_insert_of_mem (hK6 i hi1 hcase)
        · refine Finset.mem_insert_of_mem (hnu3 i ?_ ?_) <;> omega
    obtain ⟨r1, r2, r3⟩ := ih hl'
      ((fun c' => if c' = c0 then a else st.1 c'),
       (fun i => if i = a then c0 else st.2.1 i),
       insert a st.2.2.1, a + 1) ⟨nj1, nj2⟩ nK6 (by dsimp only; omega)
    refine ⟨r1, ?_, ?_⟩
    · intro c hc hval
      rcases List.mem_cons.mp hc with rfl | hc'
      · refine r3 c ?_
        dsimp only
        rw [if_pos rfl]
        exact ha0
      · exact r2 c hc' hval
    · intro c h0
      refine r3 c ?_
      dsimp only
      by_cases hcc : c = c0
      · rw [if_pos hcc]
        exact ha0
      · rw [if_neg hcc]
        exact h0


/-- The auto-numbering constructor's tables form a bijection. -/
theorem auto_mesh_bijection (W H : Int) (E : List Coord) (hnd : E.Nodup) :
    (∀ c, is_valid_position W H E c = true →
      0 ≤ (SparseMesh2D_auto W H E).grid_to_npu c ∧
      (SparseMesh2D_auto W H E).grid_to_npu c <
        (SparseMesh2D_auto W H E).valid_npu_count ∧
      (SparseMesh2D_auto W H E).npu_to_grid
        ((SparseMesh2D_auto W H E).grid_to_npu c) = c) ∧
    (∀ i, 0 ≤ i → i < (SparseMesh2D_auto W H E).valid_npu_count →
      is_valid_position W H E ((SparseMesh2D_auto W H E).npu_to_grid i) = true ∧
      (SparseMesh2D_auto W H E).grid_to_npu
        ((SparseMesh2D_auto W H E).npu_to_grid i) = i) := by
  obtain ⟨ha, hb, hc, hd, he⟩ := auto_fold_spec E (row_major_coords W H)
    (row_major_coords_nodup W H)
  constructor
  · intro c hval
    have hv := is_valid_position_iff.mp hval
    have hmem : c ∈ row_major_coords W H :=
      mem_row_major_coords.mpr ⟨hv.1, hv.2.1, hv.2.2.1, hv.2.2.2.1⟩
    exact hb c hmem hv.2.2.2.2
  · intro i h0 hk
    obtain ⟨m1, m2, m3⟩ := hd i h0 hk
    have hbnds := mem_row_major_coords.mp m1
    refine ⟨?_, m3⟩
    rw [is_valid_position_iff]
    exact ⟨hbnds.1, hbnds.2.1, hbnds.2.2.1, hbnds.2.2.2, m2⟩

/-- The custom-placement constructor's tables form a bijection. -/
theorem custom_mesh_bijection (W H : Int) (E : List Coord) (P : List (Coord × Int))
    (hW : 0 < W) (hH : 0 < H) (hndE : E.Nodup) (hndP : (P.map Prod.fst).Nodup) :
    (∀ c, is_valid_position W H E c = true →
      0 ≤ (SparseMesh2D_custom W H E P).grid_to_npu c ∧
      (SparseMesh2D_custom W H E P).grid_to_npu c <
        (SparseMesh2D_custom W H E P).valid_npu_count ∧
      (SparseMesh2D_custom W H E P).npu_to_grid
        ((SparseMesh2D_custom W H E P).grid_to_npu c) = c) ∧
    (∀ i, 0 ≤ i → i < (SparseMesh2D_custom W H E P).valid_npu_count →
      is_valid_position W H E ((SparseMesh2D_custom W H E P).npu_to_grid i) = true ∧
      (SparseMesh2D_custom W H E P).grid_to_npu
        ((SparseMesh2D_custom W H E P).npu_to_grid i) = i) := by
  have hVcard := valid_cells_card W H E hW hH hndE
  have hinit : TableInv W H E (calculate_valid_npu_count W H E)
      (fun _ => (-1 : Int)) (fun _ => ((0 : Int), (0 : Int))) (∅ : Finset Int) := by
    constructor
    · intro c hc
      exact absurd hc (by norm_num)
    · intro i hi
      exact absurd hi (Finset.not_mem_empty i)
  have hinv1 := placement_fold_inv W H E (calculate_valid_npu_count W H E) P hndP
    ((fun _ => (-1 : Int)), (fun _ => ((0 : Int), (0 : Int))), (∅ : Finset Int))
    hinit (by intro i hi; exact absurd hi (Finset.not_mem_empty i))
  have hvc : (SparseMesh2D_custom W H E P).valid_npu_count =
      calculate_valid_npu_count W H E := rfl
  by_cases hbranch :
      ((P.foldl (placement_step W H E (calculate_valid_npu_count W H E))
        ((fun _ => (-1 : Int)), (fun _ => ((0 : Int), (0 : Int))),
          (∅ : Finset Int))).2.2.card : Int) = calculate_valid_npu_count W H E
  · have hg : (SparseMesh2D_custom W H E P).grid_to_npu =
        (P.foldl (placement_step W H E (calculate_valid_npu_count W H E))
          ((fun _ => (-1 : Int)), (fun _ => ((0 : Int), (0 : Int))),
            (∅ : Finset Int))).1 := by
      simp only [SparseMesh2D_custom, if_pos hbranch]
    have hn : (SparseMesh2D_custom W H E P).npu_to_grid =
        (P.foldl (placement_step W H E (calculate_valid_npu_count W H E))
          ((fun _ => (-1 : Int)), (fun _ => ((0 : Int), (0 : Int))),
            (∅ : Finset Int))).2.1 := by
      simp only [SparseMesh2D_custom, if_pos hbranch]
    have hall := table_surj_of_card W H E (calculate_valid_npu_count W H E) _ _ _
      hVcard hinv1 hbranch
    have hbij := table_inv_bijection W H E (calculate_valid_npu_count W H E) _ _ _
      hVcard hinv1 hall
    rw [hvc, hg, hn]
    exact hbij
  · have hbounds : ∀ c ∈ row_major_coords W H,
        0 ≤ c.1 ∧ c.1 < W ∧ 0 ≤ c.2 ∧ c.2 < H := by
      intro c hc
      exact mem_row_major_coords.mp hc
    obtain ⟨r1, r2, r3⟩ := backfill_fold_inv W H E (calculate_valid_npu_count W H E)
      hVcard (row_major_coords W H) hbounds
      ((P.foldl (placement_step W H E (calculate_valid_npu_count W H E))
        ((fun _ => (-1 : Int)), (fun _ => ((0 : Int), (0 : Int))),
          (∅ : Finset Int))).1,
       (P.foldl (placement_step W H E (calculate_valid_npu_count W H E))
        ((fun _ => (-1 : Int)), (fun _ => ((0 : Int), (0 : Int))),
          (∅ : Finset Int))).2.1,
       (P.foldl (placement_step W H E (calculate_valid_npu_count W H E))
        ((fun _ => (-1 : Int)), (fun _ => ((0 : Int), (0 : Int))),
          (∅ : Finset Int))).2.2, (0 : Int))
      hinv1 (by intro i h1 h2; dsimp only at h2; omega) (le_refl 0)
    have hg : (SparseMesh2D_custom W H E P).grid_to_npu =
        ((row_major_coords W H).foldl (backfill_step E)
          ((P.foldl (placement_step W H E (calculate_valid_npu_count W H E))
            ((fun _ => (-1 : Int)), (fun _ => ((0 : Int), (0 : Int))),
              (∅ : Finset Int))).1,
           (P.foldl (placement_step W H E (calculate_valid_npu_count W H E))
            ((fun _ => (-1 : Int)), (fun _ => ((0 : Int), (0 : Int))),
              (∅ : Finset Int))).2.1,
           (P.foldl (placement_step W H E (calculate_valid_npu_count W H E))
            ((fun _ => (-1 : Int)), (fun _ => ((0 : Int), (0 : Int))),
              (∅ : Finset Int))).2.2, (0 : Int))).1 := by
      simp only [SparseMesh2D_custom, if_neg hbranch]
    have hn : (SparseMesh2D_custom W H E P).npu_to_grid =
        ((row_major_coords W H).foldl (backfill_step E)
          ((P.foldl (placement_step W H E (calculate_valid_npu_count W H E))
            ((fun _ => (-1 : Int)), (fun _ => ((0 : Int), (0 : Int))),
              (∅ : Finset Int))).1,
           (P.foldl (placement_step W H E (calculate_valid_npu_count W H E))
            ((fun _ => (-1 : Int)), (fun _ => ((0 : Int), (0 : Int))),
              (∅ : Finset Int))).2.1,
           (P.foldl (placement_step W H E (calculate_valid_npu_count W H E))
            ((fun _ => (-1 : Int)), (fun _ => ((0 : Int), (0 : Int))),
              (∅ : Finset Int))).2.2, (0 : Int))).2.1 := by
      simp only [SparseMesh2D_custom, if_neg hbranch]
    have hall : ∀ c, is_valid_position W H E c = true →
        0 ≤ ((row_major_coords W H).foldl (backfill_step E)
          ((P.foldl (placement_step W H E (calculate_valid_npu_count W H E))
            ((fun _ => (-1 : Int)), (fun _ => ((0 : Int), (0 : Int))),
              (∅ : Finset Int))).1,
           (P.foldl (placement_step W H E (calculate_valid_npu_count W H E))
            ((fun _ => (-1 : Int)), (fun _ => ((0 : Int), (0 : Int))),
              (∅ : Finset Int))).2.1,
           (P.foldl (placement_step W H E (calculate_valid_npu_count W H E))
            ((fun _ => (-1 : Int)), (fun _ => ((0 : Int), (0 : Int))),
              (∅ : Finset Int))).2.2, (0 : Int))).1 c := by
      intro c hval
      have hv := is_valid_position_iff.mp hval
      exact r2 c (mem_row_major_coords.mpr ⟨hv.1, hv.2.1, hv.2.2.1, hv.2.2.2.1⟩) hval
    have hbij := table_inv_bijection W H E (calculate_valid_npu_count W H E) _ _ _
      hVcard r1 hall
    rw [hvc, hg, hn]
    exact hbij

/-- C3: after either sparse-mesh constructor, the forward and reverse tables
form a bijection: every valid coordinate maps to exactly one ID in
`[0, valid_count)` with the reverse table mapping it back, and every ID in
that range maps to exactly one valid coordinate with the forward table
mapping it back. -/
theorem C3_table_bijection (W H : Int) (E : List Coord) (P : List (Coord × Int))
    (hW : 0 < W) (hH : 0 < H) (hndE : E.Nodup) (hndP : (P.map Prod.fst).Nodup) :
    ((∀ c, is_valid_position W H E c = true →
      0 ≤ (SparseMesh2D_auto W H E).grid_to_npu c ∧
      (SparseMesh2D_auto W H E).grid_to_npu c <
        (SparseMesh2D_auto W H E).valid_npu_count ∧
      (SparseMesh2D_auto W H E).npu_to_grid
        ((SparseMesh2D_auto W H E).grid_to_npu c) = c) ∧
    (∀ i, 0 ≤ i → i < (SparseMesh2D_auto W H E).valid_npu_count →
      is_valid_position W H E ((SparseMesh2D_auto W H E).npu_to_grid i) = true ∧
      (SparseMesh2D_auto W H E).grid_to_npu
        ((SparseMesh2D_auto W H E).npu_to_grid i) = i)) ∧
    ((∀ c, is_valid_position W H E c = true →
      0 ≤ (SparseMesh2D_custom W H E P).grid_to_npu c ∧
      (SparseMesh2D_custom W H E P).grid_to_npu c <
        (SparseMesh2D_custom W H E P).valid_npu_count ∧
      (SparseMesh2D_custom W H E P).npu_to_grid
        ((SparseMesh2D_custom W H E P).grid_to_npu c) = c) ∧
    (∀ i, 0 ≤ i → i < (SparseMesh2D_custom W H E P).valid_npu_count →
      is_valid_position W H E ((SparseMesh2D_custom W H E P).npu_to_grid i) = true ∧
      (SparseMesh2D_custom W H E P).grid_to_npu
        ((SparseMesh2D_custom W H E P).npu_to_grid i) = i)) :=
  ⟨auto_mesh_bijection W H E hndE,
   custom_mesh_bijection W H E P hW hH hndE hndP⟩

/-- C3 witness: a 3×2 grid with one hole and a partially invalid custom
placement (duplicate-free keys), instantiated at coordinate `(2, 1)` and
ID 0. -/
theorem C3_table_bijection_witness :
    ((0 : Int) < 3 ∧ (0 : Int) < 2 ∧
      ([((1 : Int), (0 : Int))] : List Coord).Nodup ∧
      (([(((0 : Int), (0 : Int)), (4 : Int)), (((2 : Int), (1 : Int)), (0 : Int))]
        : List (Coord × Int)).map Prod.fst).Nodup) ∧
    (is_valid_position 3 2 [(1, 0)] (2, 1) = true →
      0 ≤ (SparseMesh2D_custom 3 2 [(1, 0)]
          [(((0 : Int), (0 : Int)), 4), (((2 : Int), (1 : Int)), 0)]).grid_to_npu (2, 1)) := by
  have h := C3_table_bijection 3 2 [(1, 0)]
    [(((0 : Int), (0 : Int)), 4), (((2 : Int), (1 : Int)), 0)]
    (by decide) (by decide) (by decide) (by decide)
  refine ⟨⟨by decide, by decide, by decide, by decide⟩, ?_⟩
  intro hval
  exact (h.2.1 (2, 1) hval).1


/-- With nothing assigned yet, the auto-fill fallback fold performs exactly
the auto-numbering scan: IDs are handed out sequentially. -/
theorem backfill_matches_auto (E : List Coord) :
    ∀ (l : List Coord), l.Nodup →
      l.foldl (backfill_step E)
          ((fun _ => (-1 : Int)), (fun _ => ((0 : Int), (0 : Int))),
            (∅ : Finset Int), (0 : Int)) =
        ((l.foldl (auto_assign_step E) auto_init).1,
         (l.foldl (auto_assign_step E) auto_init).2.1,
         Finset.Ico 0 (l.foldl (auto_assign_step E) auto_init).2.2,
         (l.foldl (auto_assign_step E) auto_init).2.2) := by
  intro l
  induction l using List.reverseRecOn with
  | nil =>
    simp only [List.foldl_nil, auto_init]
    intro _
    refine congrArg _ (congrArg _ (congrArg₂ _ ?_ rfl))
    ext i
    simp
  | append_singleton l c0 ih =>
    intro hnd
    have hnd' : l.Nodup := (List.nodup_append.mp hnd).1
    have hc0l : c0 ∉ l := by
      have := List.nodup_append.mp hnd
      intro hmem
      exact this.2.2 hmem (List.mem_singleton_self c0)
    obtain ⟨ha, hb, hc, hd, he⟩ := auto_fold_spec E l hnd'
    have hk0 : 0 ≤ (l.foldl (auto_assign_step E) auto_init).2.2 := by
      rw [ha]
      positivity
    rw [List.foldl_append, List.foldl_append, ih hnd', List.foldl_cons, List.foldl_nil,
      List.foldl_cons, List.foldl_nil]
    by_cases hc0E : c0 ∈ E
    · rw [show backfill_step E
          ((l.foldl (auto_assign_step E) auto_init).1,
           (l.foldl (auto_assign_step E) auto_init).2.1,
           Finset.Ico 0 (l.foldl (auto_assign_step E) auto_init).2.2,
           (l.foldl (auto_assign_step E) auto_init).2.2) c0 =
          ((l.foldl (auto_assign_step E) auto_init).1,
           (l.foldl (auto_assign_step E) auto_init).2.1,
           Finset.Ico 0 (l.foldl (auto_assign_step E) auto_init).2.2,
           (l.foldl (auto_assign_step E) auto_init).2.2) by
        simp only [backfill_step, if_pos hc0E]]
      rw [show auto_assign_step E (l.foldl (auto_assign_step E) auto_init) c0 =
          l.foldl (auto_assign_step E) auto_init by
        simp only [auto_assign_step, if_pos hc0E]]
    · have hg0 : (l.foldl (auto_assign_step E) auto_init).1 c0 = -1 :=
        hc c0 (Or.inl hc0l)
      have hnu : next_unused_id
          (Finset.Ico 0 (l.foldl (auto_assign_step E) auto_init).2.2)
          (l.foldl (auto_assign_step E) auto_init).2.2 =
          (l.foldl (auto_assign_step E) auto_init).2.2 := by
        rw [next_unused_id, dif_neg (by simp)]
      have hstep1 : backfill_step E
          ((l.foldl (auto_assign_step E) auto_init).1,
           (l.foldl (auto_assign_step E) auto_init).2.1,
           Finset.Ico 0 (l.foldl (auto_assign_step E) auto_init).2.2,
           (l.foldl (auto_assign_step E) auto_init).2.2) c0 =
          ((fun c' => if c' = c0 then (l.foldl (auto_assign_step E) auto_init).2.2
              else (l.foldl (auto_assign_step E) auto_init).1 c'),
           (fun i => if i = (l.foldl (auto_assign_step E) auto_init).2.2 then c0
              else (l.foldl (auto_assign_step E) auto_init).2.1 i),
           insert (l.foldl (auto_assign_step E) auto_init).2.2
             (Finset.Ico 0 (l.foldl (auto_assign_step E) auto_init).2.2),
           (l.foldl (auto_assign_step E) auto_init).2.2 + 1) := by
        simp only [backfill_step]
        rw [if_neg hc0E, if_neg (by rw [hg0]; omega), hnu]
      have hstep2 : auto_assign_step E (l.foldl (auto_assign_step E) auto_init) c0 =
          ((fun c' => if c' = c0 then (l.foldl (auto_assign_step E) auto_init).2.2
              else (l.foldl (auto_assign_step E) auto_init).1 c'),
           (fun i => if i = (l.foldl (auto_assign_step E) auto_init).2.2 then c0
              else (l.foldl (auto_assign_step E) auto_init).2.1 i),
           (l.foldl (auto_assign_step E) auto_init).2.2 + 1) := by
        simp only [auto_assign_step, if_neg hc0E]
      rw [hstep1, hstep2]
      have hins : insert (l.foldl (auto_assign_step E) auto_init).2.2
          (Finset.Ico 0 (l.foldl (auto_assign_step E) auto_init).2.2) =
          Finset.Ico 0 ((l.foldl (auto_assign_step E) auto_init).2.2 + 1) := by
        ext i
        simp only [Finset.mem_insert, Finset.mem_Ico]
        omega
      rw [hins]

/-- C10: the custom-placement constructor with an empty placement map builds
exactly the same sparse mesh (tables, count, and hence link set) as the
auto-numbering constructor. -/
theorem C10_empty_placement_eq_auto (W H : Int) (E : List Coord)
    (hW : 0 < W) (hH : 0 < H) (hnd : E.Nodup) :
    SparseMesh2D_custom W H E [] = SparseMesh2D_auto W H E := by
  obtain ⟨ha, hb, hc, hd, he⟩ := auto_fold_spec E (row_major_coords W H)
    (row_major_coords_nodup W H)
  have hcount : (row_major_coords W H).foldl (auto_assign_step E) auto_init |>.2.2 =
      calculate_valid_npu_count W H E := by
    rw [ha]
    exact valid_scan_count W H E hW hH hnd
  by_cases hzero : calculate_valid_npu_count W H E = 0
  · have hg : ((row_major_coords W H).foldl (auto_assign_step E) auto_init).1 =
        (fun _ => (-1 : Int)) := by
      funext c
      refine hc c ?_
      by_cases hmem : c ∈ row_major_coords W H
      · by_cases hE : c ∈ E
        · exact Or.inr hE
        · exfalso
          have := hb c hmem hE
          omega
      · exact Or.inl hmem
    have hn : ((row_major_coords W H).foldl (auto_assign_step E) auto_init).2.1 =
        (fun _ => ((0 : Int), (0 : Int))) := by
      funext i
      refine he i ?_
      omega
    show SparseMesh2D_custom W H E [] = SparseMesh2D_auto W H E
    simp only [SparseMesh2D_custom, SparseMesh2D_auto, List.foldl_nil]
    rw [if_pos (by simpa using hzero.symm)]
    rw [SparseMesh.mk.injEq]
    exact ⟨rfl, rfl, rfl, hg.symm, hn.symm, by omega⟩
  · have hbf := backfill_matches_auto E (row_major_coords W H)
      (row_major_coords_nodup W H)
    show SparseMesh2D_custom W H E [] = SparseMesh2D_auto W H E
    simp only [SparseMesh2D_custom, SparseMesh2D_auto, List.foldl_nil]
    rw [if_neg (by simpa using fun h => hzero h.symm)]
    rw [hbf]
    rw [SparseMesh.mk.injEq]
    exact ⟨rfl, rfl, rfl, rfl, rfl, by omega⟩

/-- C10 witness: on the concrete 3×2 grid with hole `(1, 0)`, the two
constructors agree. -/
theorem C10_empty_placement_eq_auto_witness :
    ((0 : Int) < 3 ∧ (0 : Int) < 2 ∧ ([((1 : Int), (0 : Int))] : List Coord).Nodup) ∧
    SparseMesh2D_custom 3 2 [(1, 0)] [] = SparseMesh2D_auto 3 2 [(1, 0)] :=
  ⟨⟨by decide, by decide, by decide⟩,
    C10_empty_placement_eq_auto 3 2 [(1, 0)] (by decide) (by decide) (by decide)⟩


/-! ## BFS routing lemmas (C2, C8) -/

theorem sparse_graph_adj {m : SparseMesh} {a b : Coord} :
    m.graph.Adj a b ↔
      is_valid_position m.width m.height m.excluded a = true ∧
      is_valid_position m.width m.height m.excluded b = true ∧
      |a.1 - b.1| + |a.2 - b.2| = 1 := Iff.rfl

theorem mem_get_valid_neighbors {m : SparseMesh} {c nb : Coord} :
    nb ∈ get_valid_neighbors m c ↔
      is_valid_position m.width m.height m.excluded nb = true ∧
      |c.1 - nb.1| + |c.2 - nb.2| = 1 := by
  simp only [get_valid_neighbors, List.mem_filter, List.mem_cons, List.not_mem_nil,
    or_false]
  constructor
  · rintro ⟨h4 | h4 | h4 | h4, hval⟩ <;> subst h4 <;> refine ⟨hval, ?_⟩
    · have e1 : c.1 - (c.1 + 1, c.2).1 = -1 := by
        norm_num
      have e2 : c.2 - (c.1 + 1, c.2).2 = 0 := by
        norm_num
      rw [e1, e2]
      norm_num
    · have e1 : c.1 - (c.1 - 1, c.2).1 = 1 := by
        norm_num
      have e2 : c.2 - (c.1 - 1, c.2).2 = 0 := by
        norm_num
      rw [e1, e2]
      norm_num
    · have e1 : c.1 - (c.1, c.2 + 1).1 = 0 := by
        norm_num
      have e2 : c.2 - (c.1, c.2 + 1).2 = -1 := by
        norm_num
      rw [e1, e2]
      norm_num
    · have e1 : c.1 - (c.1, c.2 - 1).1 = 0 := by
        norm_num
      have e2 : c.2 - (c.1, c.2 - 1).2 = 1 := by
        norm_num
      rw [e1, e2]
      norm_num
  · rintro ⟨hval, habs⟩
    refine ⟨?_, hval⟩
    have h4 : (nb.1 = c.1 + 1 ∧ nb.2 = c.2) ∨ (nb.1 = c.1 - 1 ∧ nb.2 = c.2) ∨
        (nb.1 = c.1 ∧ nb.2 = c.2 + 1) ∨ (nb.1 = c.1 ∧ nb.2 = c.2 - 1) := by
      rcases abs_cases (c.1 - nb.1) with ⟨e1, f1⟩ | ⟨e1, f1⟩ <;>
        rcases abs_cases (c.2 - nb.2) with ⟨e2, f2⟩ | ⟨e2, f2⟩ <;>
        rw [e1, e2] at habs <;> omega
    rcases h4 with ⟨u, v⟩ | ⟨u, v⟩ | ⟨u, v⟩ | ⟨u, v⟩
    · exact Or.inl (Prod.ext_iff.mpr ⟨u, v⟩)
    · exact Or.inr (Or.inl (Prod.ext_iff.mpr ⟨u, v⟩))
    · exact Or.inr (Or.inr (Or.inl (Prod.ext_iff.mpr ⟨u, v⟩)))
    · exact Or.inr (Or.inr (Or.inr (Prod.ext_iff.mpr ⟨u, v⟩)))

theorem adj_of_neighbor {m : SparseMesh} {c nb : Coord}
    (hc : is_valid_position m.width m.height m.excluded c = true)
    (h : nb ∈ get_valid_neighbors m c) : m.graph.Adj c nb := by
  obtain ⟨h1, h2⟩ := mem_get_valid_neighbors.mp h
  exact sparse_graph_adj.mpr ⟨hc, h1, h2⟩

theorem neighbor_of_adj {m : SparseMesh} {c nb : Coord}
    (h : m.graph.Adj c nb) : nb ∈ get_valid_neighbors m c := by
  obtain ⟨h1, h2, h3⟩ := sparse_graph_adj.mp h
  exact mem_get_valid_neighbors.mpr ⟨h2, h3⟩

theorem dist_le_adj {V : Type} {G : SimpleGraph V} {s c w : V}
    (hr : G.Reachable s c) (ha : G.Adj c w) : G.dist s w ≤ G.dist s c + 1 := by
  obtain ⟨p, hp⟩ := hr.exists_walk_length_eq_dist
  have h := SimpleGraph.dist_le (p.concat ha)
  rw [SimpleGraph.Walk.length_concat, hp] at h
  exact h

theorem exists_dist_pred {V : Type} {G : SimpleGraph V} {s u : V}
    (hr : G.Reachable s u) (hd : 0 < G.dist s u) :
    ∃ v, G.Adj v u ∧ G.Reachable s v ∧ G.dist s v + 1 = G.dist s u := by
  obtain ⟨p, hp⟩ := hr.exists_walk_length_eq_dist
  have hrev : p.reverse.length = G.dist s u := by
    rw [SimpleGraph.Walk.length_reverse]
    exact hp
  cases hpr : p.reverse with
  | nil =>
    rw [hpr] at hrev
    simp at hrev
    omega
  | cons h q =>
    rename_i x
    rw [hpr] at hrev
    simp only [SimpleGraph.Walk.length_cons] at hrev
    refine ⟨x, h.symm, ⟨q.reverse⟩, ?_⟩
    have hle : G.dist s x ≤ q.length := by
      have := SimpleGraph.dist_le q.reverse
      rwa [SimpleGraph.Walk.length_reverse] at this
    have hge := dist_le_adj (⟨q.reverse⟩ : G.Reachable s x) h.symm
    omega

theorem walk_end_mem {m : SparseMesh} (vis : Finset Coord)
    (hclosed : ∀ u ∈ vis, ∀ w, m.graph.Adj u w → w ∈ vis) :
    ∀ {a b : Coord}, m.graph.Walk a b → a ∈ vis → b ∈ vis := by
  intro a b p
  induction p with
  | nil => exact id
  | cons h q ih =>
    intro ha
    exact ih (hclosed _ ha _ h)

theorem reconSpec_reconstruct {parent : Coord → Coord} :
    ∀ {v : Coord} {L : List Coord}, ReconSpec parent v L →
      ∀ fuel, L.length ≤ fuel → reconstruct_path parent fuel v = L := by
  intro v L h
  induction h with
  | stop hv =>
    intro fuel _
    cases fuel with
    | zero => rfl
    | succ f => simp [reconstruct_path, hv]
  | go hv hrec ih =>
    intro fuel hf
    cases fuel with
    | zero => simp at hf
    | succ f =>
      simp only [reconstruct_path, if_neg hv]
      rw [ih f (by simpa using hf)]

theorem reconSpec_update {parent : Coord → Coord} {w c : Coord} :
    ∀ {v : Coord} {L : List Coord}, ReconSpec parent v L → (∀ u ∈ L, u ≠ w) →
      ReconSpec (fun z => if z = w then c else parent z) v L := by
  intro v L h
  induction h with
  | stop hv =>
    intro _
    exact .stop hv
  | go hv hrec ih =>
    rename_i v' L'
    intro hL
    refine .go hv ?_
    have hvw : v' ≠ w := hL v' (List.mem_cons_self _ _)
    rw [if_neg hvw]
    exact ih (fun u hu => hL u (List.mem_cons_of_mem _ hu))

theorem nodup_subset_card {L : List Coord} {S : Finset Coord}
    (hnd : L.Nodup) (hsub : ∀ u ∈ L, u ∈ S) : L.length ≤ S.card := by
  rw [← List.toFinset_card_of_nodup hnd]
  exact Finset.card_le_card (fun u hu => hsub u (List.mem_toFinset.mp hu))

theorem valid_cells_card_le (W H : Int) (E : List Coord) :
    (valid_cells W H E).card ≤ W.toNat * H.toNat := by
  have h1 := List.toFinset_card_le
    ((row_major_coords W H).filter (fun c => is_valid_position W H E c))
  have h2 := List.length_filter_le
    (fun c => is_valid_position W H E c) (row_major_coords W H)
  rw [row_major_coords_length] at h2
  rw [valid_cells]
  calc ((row_major_coords W H).filter
      (fun c => is_valid_position W H E c)).toFinset.card
      ≤ ((row_major_coords W H).filter (fun c => is_valid_position W H E c)).length :=
        h1
    _ ≤ H.toNat * W.toNat := h2
    _ = W.toNat * H.toNat := Nat.mul_comm _ _


/-- One BFS neighbor-expansion fold preserves `ExpandInv`, only grows the
visited set, and ends with every processed neighbor visited. -/
theorem bfs_expand_inv (m : SparseMesh) (s dest c : Coord) (d : Nat)
    (hcd : m.graph.dist s c = d) :
    ∀ (nbrs : List Coord), (∀ nb ∈ nbrs, nb ∈ get_valid_neighbors m c) →
    ∀ (q : List Coord) (vis : Finset Coord) (par : Coord → Coord),
      ExpandInv m s dest c d q vis par →
      ExpandInv m s dest c d (bfs_expand c nbrs (q, vis, par)).1
        (bfs_expand c nbrs (q, vis, par)).2.1
        (bfs_expand c nbrs (q, vis, par)).2.2 ∧
      (∀ v ∈ vis, v ∈ (bfs_expand c nbrs (q, vis, par)).2.1) ∧
      (∀ nb ∈ nbrs, nb ∈ (bfs_expand c nbrs (q, vis, par)).2.1) := by
  intro nbrs
  induction nbrs with
  | nil =>
    intro _ q vis par hinv
    refine ⟨?_, ?_, ?_⟩
    · simpa only [bfs_expand, List.foldl_nil] using hinv
    · intro v hv
      simpa only [bfs_expand, List.foldl_nil] using hv
    · intro nb hnb
      exact absurd hnb (List.not_mem_nil nb)
  | cons nb rest ih =>
    intro hnbrs q vis par hinv
    have hrest : ∀ x ∈ rest, x ∈ get_valid_neighbors m c :=
      fun x hx => hnbrs x (List.mem_cons_of_mem _ hx)
    by_cases hnb : nb ∈ vis
    · have hstep : bfs_expand c (nb :: rest) (q, vis, par) =
          bfs_expand c rest (q, vis, par) := by
        simp only [bfs_expand, List.foldl_cons, if_pos hnb]
      rw [hstep]
      obtain ⟨r1, r2, r3⟩ := ih hrest q vis par hinv
      exact ⟨r1, r2, fun x hx => by
        rcases List.mem_cons.mp hx with rfl | hx'
        · exact r2 x hnb
        · exact r3 x hx'⟩
    · obtain ⟨i1, i2, i3, i4, i5, i6, i7, i8, i9, i10, i11, i12⟩ := hinv
      have hcvalid := i5 c i1
      have hnbmem := hnbrs nb (List.mem_cons_self _ _)
      have hnbval : is_valid_position m.width m.height m.excluded nb = true :=
        (mem_get_valid_neighbors.mp hnbmem).1
      have hadj : m.graph.Adj c nb := adj_of_neighbor hcvalid hnbmem
      have hreach_nb : m.graph.Reachable s nb := (i6 c i1).trans hadj.reachable
      have hdnb : m.graph.dist s nb = d + 1 := by
        have hle : m.graph.dist s nb ≤ d + 1 := by
          have := dist_le_adj (i6 c i1) hadj
          omega
        have hgt : ¬(m.graph.dist s nb ≤ d) := by
          intro hcon
          exact hnb (i10 nb hnbval hreach_nb hcon)
        omega
      have hcnb : c ≠ nb := fun he => hnb (he ▸ i1)
      have hstep : bfs_expand c (nb :: rest) (q, vis, par) =
          bfs_expand c rest
            (q ++ [nb], insert nb vis, fun z => if z = nb then c else par z) := by
        simp only [bfs_expand, List.foldl_cons, if_neg hnb]
      rw [hstep]
      have hnewinv : ExpandInv m s dest c d (q ++ [nb]) (insert nb vis)
          (fun z => if z = nb then c else par z) := by
        refine ⟨Finset.mem_insert_of_mem i1, ?_, Finset.mem_insert_of_mem i3,
          ?_, ?_, ?_, ?_, ?_, ?_, ?_, ?_, ?_⟩
        · intro hcq
          rcases List.mem_append.mp hcq with h | h
          · exact i2 h
          · exact hcnb (List.mem_singleton.mp h)
        · intro v hv
          rcases List.mem_append.mp hv with h | h
          · exact Finset.mem_insert_of_mem (i4 v h)
          · rw [List.mem_singleton.mp h]
            exact Finset.mem_insert_self _ _
        · intro v hv
          rcases Finset.mem_insert.mp hv with rfl | h
          · exact hnbval
          · exact i5 v h
        · intro v hv
          rcases Finset.mem_insert.mp hv with rfl | h
          · exact hreach_nb
          · exact i6 v h
        · rw [List.nodup_append]
          refine ⟨i7, List.nodup_singleton nb, ?_⟩
          intro a ha hamem
          rw [List.mem_singleton.mp hamem] at ha
          exact hnb (i4 nb ha)
        · intro v hv
          rcases Finset.mem_insert.mp hv with hveq | h
          · subst hveq
            obtain ⟨Lc, c1, c2, c3, c4, c5, c6, c7⟩ := i8 c i1
            have hLcnb : ∀ u ∈ Lc, u ≠ v := fun u hu he => hnb (he ▸ c5 u hu)
            have hnb1 : v.1 ≠ -1 := by
              have := (is_valid_position_iff.mp hnbval).1
              omega
            obtain ⟨Lc', hLc'⟩ : ∃ t, Lc = c :: t := by
              cases hLce : Lc with
              | nil => rw [hLce] at c2; simp at c2
              | cons a t =>
                rw [hLce] at c2
                simp only [List.head?_cons, Option.some.injEq] at c2
                exact ⟨t, by rw [c2]⟩
            refine ⟨v :: Lc, .go hnb1 ?_, by simp, ?_, ?_, ?_, ?_, ?_⟩
            · rw [if_pos rfl]
              exact reconSpec_update c1 hLcnb
            · rw [hLc']
              rw [List.getLast?_cons_cons]
              rw [hLc'] at c3
              exact c3
            · simp only [List.length_cons, c3, hdnb]
              omega
            · intro u hu
              rcases List.mem_cons.mp hu with rfl | h
              · exact Finset.mem_insert_self _ _
              · exact Finset.mem_insert_of_mem (c5 u h)
            · rw [List.nodup_cons]
              exact ⟨fun hmem => (hLcnb v hmem) rfl, c6⟩
            · rw [hLc', List.chain'_cons]
              rw [hLc'] at c7
              exact ⟨hadj, c7⟩
          · obtain ⟨Lv, c1, c2, c3, c4, c5, c6, c7⟩ := i8 v h
            have hLvnb : ∀ u ∈ Lv, u ≠ nb := fun u hu he => hnb (he ▸ c5 u hu)
            exact ⟨Lv, reconSpec_update c1 hLvnb, c2, c3, c4,
              fun u hu => Finset.mem_insert_of_mem (c5 u hu), c6, c7⟩
        · obtain ⟨qa, qb, he, hqa, hqb⟩ := i9
          refine ⟨qa, qb ++ [nb], by rw [he, List.append_assoc], hqa, ?_⟩
          intro v hv
          rcases List.mem_append.mp hv with h | h
          · exact hqb v h
          · rw [List.mem_singleton.mp h]
            exact hdnb
        · intro u hval hreach hd'
          exact Finset.mem_insert_of_mem (i10 u hval hreach hd')
        · intro u hu huq hune w hw
          have hunb : u ≠ nb := by
            intro he
            subst he
            exact huq (List.mem_append_right _ (List.mem_singleton_self u))
          have hu' : u ∈ vis := by
            rcases Finset.mem_insert.mp hu with h | h
            · exact absurd h hunb
            · exact h
          have huq' : u ∉ q := fun h => huq (List.mem_append_left _ h)
          exact Finset.mem_insert_of_mem (i11 u hu' huq' hune w hw)
        · intro hdest
          rcases Finset.mem_insert.mp hdest with h | h
          · rw [h]
            exact List.mem_append_right _ (List.mem_singleton_self nb)
          · exact List.mem_append_left _ (i12 h)
      obtain ⟨r1, r2, r3⟩ := ih hrest (q ++ [nb]) (insert nb vis)
        (fun z => if z = nb then c else par z) hnewinv
      refine ⟨r1, ?_, ?_⟩
      · intro v hv
        exact r2 v (Finset.mem_insert_of_mem hv)
      · intro x hx
        rcases List.mem_cons.mp hx with rfl | hx'
        · exact r2 x (Finset.mem_insert_self _ _)
        · exact r3 x hx'


/-- The BFS main loop, started in any state satisfying the invariant with the
destination reachable, succeeds and returns a destination-first shortest path
down to the source. -/
theorem bfs_loop_correct (m : SparseMesh) (s dest : Coord)
    (hreach : m.graph.Reachable s dest) :
    ∀ (N : Nat) (q : List Coord) (visited : Finset Coord) (parent : Coord → Coord),
      ((valid_cells m.width m.height m.excluded) \ visited).card * 5 + q.length ≤ N →
      BfsInv m s dest q visited parent →
      ∃ L, bfs_loop m dest q visited parent = some L ∧
        L.head? = some dest ∧ L.getLast? = some s ∧
        L.length = m.graph.dist s dest + 1 ∧
        List.Chain' (fun a b => m.graph.Adj b a) L := by
  intro N
  induction N using Nat.strong_induction_on with
  | _ N ih =>
  intro q visited parent hN hinv
  obtain ⟨b1, b2, b3, b4, b5, b6, b7, b8, b9⟩ := hinv
  cases q with
  | nil =>
    exfalso
    have hclosed : ∀ u ∈ visited, ∀ w, m.graph.Adj u w → w ∈ visited :=
      fun u hu w hw => b8 u hu (List.not_mem_nil u) w hw
    obtain ⟨p⟩ := hreach
    exact List.not_mem_nil dest (b9 (walk_end_mem visited hclosed p b1))
  | cons c rest =>
    by_cases hcdest : c = dest
    · have hdvis : dest ∈ visited := hcdest ▸ b2 c (List.mem_cons_self c rest)
      obtain ⟨L, r1, r2, r3, r4, r5, r6, r7⟩ := b6 dest hdvis
      refine ⟨L, ?_, r2, r3, r4, r7⟩
      rw [bfs_loop, if_pos hcdest]
      have hlen : L.length ≤ m.width.toNat * m.height.toNat + 1 := by
        have h1 : L.length ≤ (valid_cells m.width m.height m.excluded).card :=
          nodup_subset_card r6 (fun u hu => mem_valid_cells (b3 u (r5 u hu)))
        have h2 := valid_cells_card_le m.width m.height m.excluded
        omega
      rw [reconSpec_reconstruct r1 _ hlen]
    · have hc_vis : c ∈ visited := b2 c (List.mem_cons_self c rest)
      have hc_notin_rest : c ∉ rest := (List.nodup_cons.mp b5).1
      have hrest_nodup : rest.Nodup := (List.nodup_cons.mp b5).2
      obtain ⟨d, ⟨qa, qb, heq, hqa, hqb⟩, hfront⟩ := b7
      have hsplit : ∃ D, m.graph.dist s c = D ∧
          (∃ ra rb, rest = ra ++ rb ∧ (∀ v ∈ ra, m.graph.dist s v = D) ∧
            (∀ v ∈ rb, m.graph.dist s v = D + 1)) ∧
          (∀ u, is_valid_position m.width m.height m.excluded u = true →
            m.graph.Reachable s u → m.graph.dist s u ≤ D → u ∈ visited) := by
        cases qa with
        | nil =>
          simp only [List.nil_append] at heq
          refine ⟨d + 1, hqb c (heq ▸ List.mem_cons_self c rest),
            ⟨rest, [], by simp,
              fun v hv => hqb v (heq ▸ List.mem_cons_of_mem c hv),
              fun v hv => absurd hv (List.not_mem_nil v)⟩, ?_⟩
          intro u hval hr hdu
          rcases Nat.lt_or_ge d (m.graph.dist s u) with hgt | hle
          · have hdeq : m.graph.dist s u = d + 1 := by omega
            have hupos : 0 < m.graph.dist s u := by omega
            obtain ⟨v, hadj, hreachv, hdv⟩ := exists_dist_pred hr hupos
            have hvval : is_valid_position m.width m.height m.excluded v = true :=
              (sparse_graph_adj.mp hadj).1
            have hvvis : v ∈ visited := hfront v hvval hreachv (by omega)
            have hvq : v ∉ c :: rest := by
              intro hmem
              have := hqb v (heq ▸ hmem)
              omega
            exact b8 v hvvis hvq u hadj
          · exact hfront u hval hr hle
        | cons a0 qa2 =>
          rw [List.cons_append] at heq
          injection heq with h1 h2
          refine ⟨d, by rw [h1]; exact hqa a0 (List.mem_cons_self _ _),
            ⟨qa2, qb, h2, fun v hv => hqa v (List.mem_cons_of_mem _ hv), hqb⟩, hfront⟩
      obtain ⟨D, hdc, ⟨ra, rb, hrest_eq, hra, hrb⟩, hfrontD⟩ := hsplit
      have hexp : ExpandInv m s dest c D rest visited parent := by
        refine ⟨hc_vis, hc_notin_rest, b1, fun v hv => b2 v (List.mem_cons_of_mem _ hv),
          b3, b4, hrest_nodup, b6, ⟨ra, rb, hrest_eq, hra, hrb⟩, hfrontD, ?_, ?_⟩
        · intro u hu hur hune w hw
          refine b8 u hu ?_ w hw
          simp only [List.mem_cons, not_or]
          exact ⟨hune, hur⟩
        · intro hdvis
          rcases List.mem_cons.mp (b9 hdvis) with h | h
          · exact absurd h.symm hcdest
          · exact h
      obtain ⟨f_inv, f_sub, f_nbrs⟩ := bfs_expand_inv m s dest c D hdc
        (get_valid_neighbors m c) (fun nb h => h) rest visited parent hexp
      obtain ⟨e1, e2, e3, e4, e5, e6, e7, e8, e9, e10, e11, e12⟩ := f_inv
      have hnewinv : BfsInv m s dest
          (bfs_expand c (get_valid_neighbors m c) (rest, visited, parent)).1
          (bfs_expand c (get_valid_neighbors m c) (rest, visited, parent)).2.1
          (bfs_expand c (get_valid_neighbors m c) (rest, visited, parent)).2.2 := by
        refine ⟨e3, e4, e5, e6, e7, e8, ⟨D, e9, e10⟩, ?_, e12⟩
        intro u hu huq w hw
        by_cases huc : u = c
        · subst huc
          exact f_nbrs w (neighbor_of_adj hw)
        · exact e11 u hu huq huc w hw
      have hmeas := bfs_expand_measure (valid_cells m.width m.height m.excluded) c
        (get_valid_neighbors m c)
        (fun nb hnb => mem_valid_cells (mem_get_valid_neighbors.mp hnb).1)
        rest visited parent
      have hrec := ih (N - 1) (by simp only [List.length_cons] at hN; omega)
        (bfs_expand c (get_valid_neighbors m c) (rest, visited, parent)).1
        (bfs_expand c (get_valid_neighbors m c) (rest, visited, parent)).2.1
        (bfs_expand c (get_valid_neighbors m c) (rest, visited, parent)).2.2
        (by simp only [List.length_cons] at hN; omega) hnewinv
      obtain ⟨L, hL, h2, h3, h4, h5⟩ := hrec
      refine ⟨L, ?_, h2, h3, h4, h5⟩
      rw [bfs_loop, if_neg hcdest]
      exact hL


/-- On success the BFS route is a shortest coordinate path mapped to device
IDs, with the source first.  Stated for any mesh whose reverse table is a
right inverse of the forward table on the valid ID range. -/
theorem bfs_route_correct (m : SparseMesh)
    (hbij2 : ∀ i, 0 ≤ i → i < m.valid_npu_count →
      is_valid_position m.width m.height m.excluded (m.npu_to_grid i) = true ∧
      m.grid_to_npu (m.npu_to_grid i) = i)
    (src dest : Int) (h0s : 0 ≤ src) (hs : src < m.valid_npu_count)
    (h0d : 0 ≤ dest) (hd : dest < m.valid_npu_count) (hne : src ≠ dest)
    (hreach : m.graph.Reachable (m.npu_to_grid src) (m.npu_to_grid dest)) :
    ∃ L : List Coord,
      m.route src dest = L.map (fun c => get_npu_at m c) ∧
      L.head? = some (m.npu_to_grid src) ∧
      L.getLast? = some (m.npu_to_grid dest) ∧
      List.Chain' m.graph.Adj L ∧
      (m.route src dest).head? = some src ∧
      (m.route src dest).getLast? = some dest ∧
      (m.route src dest).length =
        m.graph.dist (m.npu_to_grid src) (m.npu_to_grid dest) + 1 := by
  obtain ⟨hsval, hsinv⟩ := hbij2 src h0s hs
  obtain ⟨hdval, hdinv⟩ := hbij2 dest h0d hd
  have hinv : BfsInv m (m.npu_to_grid src) (m.npu_to_grid dest)
      [m.npu_to_grid src] {m.npu_to_grid src}
      (fun z => if z = m.npu_to_grid src then ((-1 : Int), (-1 : Int))
        else ((0 : Int), (0 : Int))) := by
    have hsx : (m.npu_to_grid src).1 ≠ -1 := by
      have := is_valid_position_iff.mp hsval
      omega
    refine ⟨Finset.mem_singleton_self _, ?_, ?_, ?_, List.nodup_singleton _,
      ?_, ⟨0, ⟨[m.npu_to_grid src], [], by simp, ?_, ?_⟩, ?_⟩, ?_, ?_⟩
    · intro v hv
      rw [List.mem_singleton] at hv
      rw [hv]
      exact Finset.mem_singleton_self _
    · intro v hv
      rw [Finset.mem_singleton] at hv
      rw [hv]
      exact hsval
    · intro v hv
      rw [Finset.mem_singleton] at hv
      rw [hv]
    · intro v hv
      rw [Finset.mem_singleton] at hv
      subst hv
      refine ⟨[m.npu_to_grid src], .go hsx (.stop (by rw [if_pos rfl])), rfl, rfl,
        ?_, ?_, List.nodup_singleton _, List.chain'_singleton _⟩
      · rw [SimpleGraph.dist_self]
        rfl
      · intro u hu
        rw [List.mem_singleton] at hu
        rw [hu]
        exact Finset.mem_singleton_self _
    · intro v hv
      rw [List.mem_singleton] at hv
      rw [hv, SimpleGraph.dist_self]
    · intro v hv
      exact absurd hv (List.not_mem_nil v)
    · intro u hval hr hdu
      have h0 : m.graph.dist (m.npu_to_grid src) u = 0 := Nat.le_zero.mp hdu
      rw [Finset.mem_singleton]
      exact (hr.dist_eq_zero_iff.mp h0).symm
    · intro u hu huq
      exact absurd (by rw [Finset.mem_singleton] at hu; rw [hu]; exact
        List.mem_singleton_self _) huq
    · intro hdc
      rw [Finset.mem_singleton] at hdc
      rw [hdc]
      exact List.mem_singleton_self _
  obtain ⟨path, hloop, hhead, hlast, hlen, hchain⟩ :=
    bfs_loop_correct m (m.npu_to_grid src) (m.npu_to_grid dest) hreach
      ((valid_cells m.width m.height m.excluded \
        {m.npu_to_grid src}).card * 5 + 1)
      [m.npu_to_grid src] {m.npu_to_grid src}
      (fun z => if z = m.npu_to_grid src then ((-1 : Int), (-1 : Int))
        else ((0 : Int), (0 : Int)))
      (by simp) hinv
  have hroute : m.route src dest = path.reverse.map (fun c => get_npu_at m c) := by
    rw [SparseMesh.route, if_neg hne, bfs_route]
    rw [hloop]
  have hbs := is_valid_position_iff.mp hsval
  have hbd := is_valid_position_iff.mp hdval
  have hfs : get_npu_at m (m.npu_to_grid src) = src := by
    rw [get_npu_at, if_neg (by push_neg; omega)]
    exact hsinv
  have hfd : get_npu_at m (m.npu_to_grid dest) = dest := by
    rw [get_npu_at, if_neg (by push_neg; omega)]
    exact hdinv
  refine ⟨path.reverse, hroute, ?_, ?_, ?_, ?_, ?_, ?_⟩
  · rw [List.head?_reverse]
    exact hlast
  · rw [List.getLast?_reverse]
    exact hhead
  · rw [List.chain'_reverse]
    exact hchain
  · rw [hroute, List.head?_map, List.head?_reverse, hlast]
    exact congrArg some hfs
  · rw [hroute, List.getLast?_map, List.getLast?_reverse, hhead]
    exact congrArg some hfd
  · rw [hroute, List.length_map, List.length_reverse]
    exact hlen


/-- C2: for a sparse mesh built by either SparseMesh2D constructor, and any
two distinct device IDs in `[0, valid_count)` whose grid coordinates lie in
the same connected component of the induced grid graph, `route(src, dest)`
returns the device-ID image of a coordinate path from the source's cell to
the destination's cell whose hop count (length minus one) equals the
shortest-hop distance between those cells in that graph. -/
theorem C2_bfs_shortest_path (W H : Int) (E : List Coord) (P : List (Coord × Int))
    (hW : 0 < W) (hH : 0 < H) (hndE : E.Nodup) (hndP : (P.map Prod.fst).Nodup)
    (m : SparseMesh)
    (hm : m = SparseMesh2D_auto W H E ∨ m = SparseMesh2D_custom W H E P)
    (src dest : Int) (h0s : 0 ≤ src) (hs : src < m.valid_npu_count)
    (h0d : 0 ≤ dest) (hd : dest < m.valid_npu_count) (hne : src ≠ dest)
    (hreach : m.graph.Reachable (m.npu_to_grid src) (m.npu_to_grid dest)) :
    ∃ L : List Coord,
      m.route src dest = L.map (fun c => get_npu_at m c) ∧
      L.head? = some (m.npu_to_grid src) ∧
      L.getLast? = some (m.npu_to_grid dest) ∧
      List.Chain' m.graph.Adj L ∧
      (m.route src dest).head? = some src ∧
      (m.route src dest).getLast? = some dest ∧
      (m.route src dest).length =
        m.graph.dist (m.npu_to_grid src) (m.npu_to_grid dest) + 1 := by
  rcases hm with rfl | rfl
  · exact bfs_route_correct _
      (fun i h1 h2 => (auto_mesh_bijection W H E hndE).2 i h1 h2)
      src dest h0s hs h0d hd hne hreach
  · exact bfs_route_correct _
      (fun i h1 h2 => (custom_mesh_bijection W H E P hW hH hndE hndP).2 i h1 h2)
      src dest h0s hs h0d hd hne hreach


/-- Witness for C2 on the 3-by-2 mesh with cell `(1, 0)` excluded: device 0
sits at `(0, 0)`, device 1 at `(2, 0)`, and the route between them detours
through the second row. -/
theorem C2_bfs_shortest_path_witness :
    ∃ L : List Coord,
      (SparseMesh2D_auto 3 2 [((1 : Int), (0 : Int))]).route 0 1 =
        L.map (fun c => get_npu_at (SparseMesh2D_auto 3 2 [((1 : Int), (0 : Int))]) c) ∧
      L.head? = some ((SparseMesh2D_auto 3 2 [((1 : Int), (0 : Int))]).npu_to_grid 0) ∧
      L.getLast? = some ((SparseMesh2D_auto 3 2 [((1 : Int), (0 : Int))]).npu_to_grid 1) ∧
      List.Chain' (SparseMesh2D_auto 3 2 [((1 : Int), (0 : Int))]).graph.Adj L ∧
      ((SparseMesh2D_auto 3 2 [((1 : Int), (0 : Int))]).route 0 1).head? = some 0 ∧
      ((SparseMesh2D_auto 3 2 [((1 : Int), (0 : Int))]).route 0 1).getLast? = some 1 ∧
      ((SparseMesh2D_auto 3 2 [((1 : Int), (0 : Int))]).route 0 1).length =
        (SparseMesh2D_auto 3 2 [((1 : Int), (0 : Int))]).graph.dist
          ((SparseMesh2D_auto 3 2 [((1 : Int), (0 : Int))]).npu_to_grid 0)
          ((SparseMesh2D_auto 3 2 [((1 : Int), (0 : Int))]).npu_to_grid 1) + 1 := by
  have h0 : (SparseMesh2D_auto 3 2 [((1 : Int), (0 : Int))]).npu_to_grid 0 =
      ((0 : Int), (0 : Int)) := by decide
  have h1 : (SparseMesh2D_auto 3 2 [((1 : Int), (0 : Int))]).npu_to_grid 1 =
      ((2 : Int), (0 : Int)) := by decide
  have e1 : (SparseMesh2D_auto 3 2 [((1 : Int), (0 : Int))]).graph.Adj
      ((0 : Int), (0 : Int)) ((0 : Int), (1 : Int)) := sparse_graph_adj.mpr (by decide)
  have e2 : (SparseMesh2D_auto 3 2 [((1 : Int), (0 : Int))]).graph.Adj
      ((0 : Int), (1 : Int)) ((1 : Int), (1 : Int)) := sparse_graph_adj.mpr (by decide)
  have e3 : (SparseMesh2D_auto 3 2 [((1 : Int), (0 : Int))]).graph.Adj
      ((1 : Int), (1 : Int)) ((2 : Int), (1 : Int)) := sparse_graph_adj.mpr (by decide)
  have e4 : (SparseMesh2D_auto 3 2 [((1 : Int), (0 : Int))]).graph.Adj
      ((2 : Int), (1 : Int)) ((2 : Int), (0 : Int)) := sparse_graph_adj.mpr (by decide)
  have hreach : (SparseMesh2D_auto 3 2 [((1 : Int), (0 : Int))]).graph.Reachable
      ((SparseMesh2D_auto 3 2 [((1 : Int), (0 : Int))]).npu_to_grid 0)
      ((SparseMesh2D_auto 3 2 [((1 : Int), (0 : Int))]).npu_to_grid 1) := by
    rw [h0, h1]
    exact e1.reachable.trans (e2.reachable.trans (e3.reachable.trans e4.reachable))
  exact C2_bfs_shortest_path 3 2 [((1 : Int), (0 : Int))] [] (by decide) (by decide)
    (by decide) (by decide) _ (Or.inl rfl) 0 1 (by decide) (by decide) (by decide)
    (by decide) (by decide) hreach


/-- The neighbor-expansion fold keeps the queue inside the visited set and
every visited cell valid and reachable from the source. -/
theorem bfs_expand_sound (m : SparseMesh) (s c : Coord)
    (hcr : m.graph.Reachable s c)
    (hcv : is_valid_position m.width m.height m.excluded c = true) :
    ∀ (nbrs : List Coord), (∀ nb ∈ nbrs, nb ∈ get_valid_neighbors m c) →
    ∀ (q : List Coord) (vis : Finset Coord) (par : Coord → Coord),
      (∀ v ∈ q, v ∈ vis) →
      (∀ v ∈ vis, is_valid_position m.width m.height m.excluded v = true ∧
        m.graph.Reachable s v) →
      (∀ v ∈ (bfs_expand c nbrs (q, vis, par)).1,
        v ∈ (bfs_expand c nbrs (q, vis, par)).2.1) ∧
      (∀ v ∈ (bfs_expand c nbrs (q, vis, par)).2.1,
        is_valid_position m.width m.height m.excluded v = true ∧
        m.graph.Reachable s v) := by
  intro nbrs
  induction nbrs with
  | nil =>
    intro _ q vis par hq hvis
    exact ⟨hq, hvis⟩
  | cons nb rest ih =>
    intro hnbrs q vis par hq hvis
    have hrest : ∀ x ∈ rest, x ∈ get_valid_neighbors m c :=
      fun x hx => hnbrs x (List.mem_cons_of_mem _ hx)
    by_cases hnb : nb ∈ vis
    · have hstep : bfs_expand c (nb :: rest) (q, vis, par) =
          bfs_expand c rest (q, vis, par) := by
        simp only [bfs_expand, List.foldl_cons, if_pos hnb]
      rw [hstep]
      exact ih hrest q vis par hq hvis
    · have hnbmem := hnbrs nb (List.mem_cons_self _ _)
      have hnbval : is_valid_position m.width m.height m.excluded nb = true :=
        (mem_get_valid_neighbors.mp hnbmem).1
      have hadj : m.graph.Adj c nb := adj_of_neighbor hcv hnbmem
      have hstep : bfs_expand c (nb :: rest) (q, vis, par) =
          bfs_expand c rest
            (q ++ [nb], insert nb vis, fun z => if z = nb then c else par z) := by
        simp only [bfs_expand, List.foldl_cons, if_neg hnb]
      rw [hstep]
      refine ih hrest (q ++ [nb]) (insert nb vis) _ ?_ ?_
      · intro v hv
        rcases List.mem_append.mp hv with h | h
        · exact Finset.mem_insert_of_mem (hq v h)
        · rw [List.mem_singleton] at h
          rw [h]
          exact Finset.mem_insert_self _ _
      · intro v hv
        rcases Finset.mem_insert.mp hv with rfl | h
        · exact ⟨hnbval, hcr.trans hadj.reachable⟩
        · exact hvis v h

/-- If the destination is unreachable from the source, the BFS loop exhausts
its queue and returns `none`. -/
theorem bfs_loop_sound (m : SparseMesh) (s dest : Coord)
    (hnreach : ¬ m.graph.Reachable s dest) :
    ∀ (N : Nat) (q : List Coord) (visited : Finset Coord) (parent : Coord → Coord),
      ((valid_cells m.width m.height m.excluded) \ visited).card * 5 + q.length ≤ N →
      (∀ v ∈ q, v ∈ visited) →
      (∀ v ∈ visited, is_valid_position m.width m.height m.excluded v = true ∧
        m.graph.Reachable s v) →
      bfs_loop m dest q visited parent = none := by
  intro N
  induction N using Nat.strong_induction_on with
  | _ N ih =>
  intro q visited parent hN hq hvis
  cases q with
  | nil => rw [bfs_loop]
  | cons c rest =>
    have hc := hvis c (hq c (List.mem_cons_self c rest))
    have hcdest : ¬ c = dest := by
      intro h
      exact hnreach (h ▸ hc.2)
    rw [bfs_loop, if_neg hcdest]
    obtain ⟨g1, g2⟩ := bfs_expand_sound m s c hc.2 hc.1 (get_valid_neighbors m c)
      (fun nb h => h) rest visited parent
      (fun v hv => hq v (List.mem_cons_of_mem _ hv)) hvis
    have hmeas := bfs_expand_measure (valid_cells m.width m.height m.excluded) c
      (get_valid_neighbors m c)
      (fun nb hnb => mem_valid_cells (mem_get_valid_neighbors.mp hnb).1)
      rest visited parent
    exact ih (N - 1) (by simp only [List.length_cons] at hN; omega)
      (bfs_expand c (get_valid_neighbors m c) (rest, visited, parent)).1
      (bfs_expand c (get_valid_neighbors m c) (rest, visited, parent)).2.1
      (bfs_expand c (get_valid_neighbors m c) (rest, visited, parent)).2.2
      (by simp only [List.length_cons] at hN; omega) g1 g2


/-- When the destination's cell is unreachable from the source's cell, the
route degrades to the single-element list holding the source ID. -/
theorem route_unreachable (m : SparseMesh) (src dest : Int)
    (hsval : is_valid_position m.width m.height m.excluded (m.npu_to_grid src) = true)
    (hne : src ≠ dest)
    (hnreach : ¬ m.graph.Reachable (m.npu_to_grid src) (m.npu_to_grid dest)) :
    m.route src dest = [src] := by
  have hloop := bfs_loop_sound m (m.npu_to_grid src) (m.npu_to_grid dest) hnreach
    (((valid_cells m.width m.height m.excluded) \ {m.npu_to_grid src}).card * 5 + 1)
    [m.npu_to_grid src] {m.npu_to_grid src}
    (fun z => if z = m.npu_to_grid src then ((-1 : Int), (-1 : Int))
      else ((0 : Int), (0 : Int)))
    (by simp)
    (fun v hv => by
      rw [List.mem_singleton] at hv
      rw [hv]
      exact Finset.mem_singleton_self _)
    (fun v hv => by
      rw [Finset.mem_singleton] at hv
      rw [hv]
      exact ⟨hsval, SimpleGraph.Reachable.refl _⟩)
  rw [SparseMesh.route, if_neg hne, bfs_route]
  rw [hloop]

/-- C8: in a sparse mesh built by either SparseMesh2D constructor, for every
pair of distinct in-range device IDs whose cells lie in different connected
components of the induced grid graph, `route(src, dest)` returns the
single-element route holding only the source device: the BFS exhausts
without reaching the destination and the implementation degrades to `[src]`
instead of signalling an error. -/
theorem C8_disconnected_fallback (W H : Int) (E : List Coord) (P : List (Coord × Int))
    (hW : 0 < W) (hH : 0 < H) (hndE : E.Nodup) (hndP : (P.map Prod.fst).Nodup)
    (m : SparseMesh)
    (hm : m = SparseMesh2D_auto W H E ∨ m = SparseMesh2D_custom W H E P)
    (src dest : Int) (h0s : 0 ≤ src) (hs : src < m.valid_npu_count)
    (h0d : 0 ≤ dest) (hd : dest < m.valid_npu_count) (hne : src ≠ dest)
    (hnreach : ¬ m.graph.Reachable (m.npu_to_grid src) (m.npu_to_grid dest)) :
    m.route src dest = [src] := by
  rcases hm with rfl | rfl
  · exact route_unreachable _ src dest
      ((auto_mesh_bijection W H E hndE).2 src h0s hs).1 hne hnreach
  · exact route_unreachable _ src dest
      ((custom_mesh_bijection W H E P hW hH hndE hndP).2 src h0s hs).1 hne hnreach

/-- Witness for C8 on the 3-by-1 mesh with the middle cell excluded: devices
0 at `(0, 0)` and 1 at `(2, 0)` are cut off from each other, and the route
degrades to `[0]`. -/
theorem C8_disconnected_fallback_witness :
    (SparseMesh2D_auto 3 1 [((1 : Int), (0 : Int))]).route 0 1 = [0] := by
  have h0 : (SparseMesh2D_auto 3 1 [((1 : Int), (0 : Int))]).npu_to_grid 0 =
      ((0 : Int), (0 : Int)) := by decide
  have h1 : (SparseMesh2D_auto 3 1 [((1 : Int), (0 : Int))]).npu_to_grid 1 =
      ((2 : Int), (0 : Int)) := by decide
  have hclosed : ∀ u ∈ ({((0 : Int), (0 : Int))} : Finset Coord), ∀ w,
      (SparseMesh2D_auto 3 1 [((1 : Int), (0 : Int))]).graph.Adj u w →
      w ∈ ({((0 : Int), (0 : Int))} : Finset Coord) := by
    intro u hu w hw
    rw [Finset.mem_singleton] at hu
    subst hu
    obtain ⟨hva, hvb, habs⟩ := sparse_graph_adj.mp hw
    rw [is_valid_position_iff] at hvb
    obtain ⟨g1, g2, g3, g4, g5⟩ := hvb
    exfalso
    have hWd : (SparseMesh2D_auto 3 1 [((1 : Int), (0 : Int))]).width = 3 := rfl
    have hHd : (SparseMesh2D_auto 3 1 [((1 : Int), (0 : Int))]).height = 1 := rfl
    rw [hWd] at g2
    rw [hHd] at g4
    have hu1 : (((0 : Int), (0 : Int)) : Coord).1 = 0 := rfl
    have hu2 : (((0 : Int), (0 : Int)) : Coord).2 = 0 := rfl
    rw [hu1, hu2] at habs
    simp only [zero_sub, abs_neg] at habs
    rw [abs_of_nonneg g1, abs_of_nonneg g3] at habs
    have hw2 : w.2 = 0 := by omega
    have hw1 : w.1 = 1 := by omega
    refine g5 ?_
    have hweq : w = ((1 : Int), (0 : Int)) := Prod.ext_iff.mpr ⟨hw1, hw2⟩
    rw [hweq]
    exact List.mem_singleton_self _
  have hnreach : ¬ (SparseMesh2D_auto 3 1 [((1 : Int), (0 : Int))]).graph.Reachable
      ((SparseMesh2D_auto 3 1 [((1 : Int), (0 : Int))]).npu_to_grid 0)
      ((SparseMesh2D_auto 3 1 [((1 : Int), (0 : Int))]).npu_to_grid 1) := by
    rw [h0, h1]
    intro hr
    obtain ⟨p⟩ := hr
    have hend := walk_end_mem ({((0 : Int), (0 : Int))} : Finset Coord) hclosed p
      (Finset.mem_singleton_self _)
    rw [Finset.mem_singleton] at hend
    exact absurd hend (by decide)
  exact C8_disconnected_fallback 3 1 [((1 : Int), (0 : Int))] [] (by decide) (by decide)
    (by decide) (by decide) _ (Or.inl rfl) 0 1 (by decide) (by decide) (by decide)
    (by decide) (by decide) hnreach

end NetworkAnalyticalCongestionAware
